import Mathlib

/-!
Verification of the Image_to_SVG vectorization pipeline.

This file gives a shallow embedding, in Lean 4, of the pure algorithmic core
of the repository (color quantization, binary cleanup morphology,
border-region flood fill, path geometry, settings validation, and the SVG
assembler's dimension arithmetic), translated from the TypeScript sources:

  * backend/src/services/vectorizer.ts   (calculateOutputDimensions, convert
    stats, the multicolor per-layer trace loop)
  * backend/src/routes/convert.ts        (validateSettings)
  * the geometry utilities               (simplifyPath, calculatePolygonArea)
  * the color utilities                  (kMeansQuantize and its helpers)
  * the cleanup pipeline                 (threshold/invert steps, applyErosion,
    removeEdgeConnectedRegions)

JavaScript numbers are modelled as ℚ where fractional values occur and as ℕ
for 8-bit pixel channel data; fallible external calls (the potrace tracer)
are modelled as `Except` values supplied as parameters.
-/

/-! ## Data model -/

/-- JavaScript `Math.round`: round half up (`Math.round(2.5) = 3`,
`Math.round(-0.5) = 0`), i.e. the floor of `q + 1/2`. -/
def jsRound (q : ℚ) : ℤ := (q + 1/2).floor

/-- An RGB color sample; in the pipeline every channel is an 8-bit
integer (pixel bytes, or `Math.round`ed channel means), so channels are ℕ. -/
structure RGB where
  r : ℕ
  g : ℕ
  b : ℕ
deriving DecidableEq, Repr

/-- An RGBA pixel as decoded from the raster image (8-bit channels). -/
structure RGBA where
  r : ℕ
  g : ℕ
  b : ℕ
  a : ℕ
deriving DecidableEq, Repr

/-- Drop the alpha channel (TypeScript passes `RGBA` values where `RGB` is
expected structurally; only `r`, `g`, `b` are read). -/
def RGBA.toRGB (p : RGBA) : RGB := ⟨p.r, p.g, p.b⟩

/-- A plane point in source-pixel units (`{x, y}`, real-valued in JS). -/
structure Point where
  x : ℚ
  y : ℚ
deriving DecidableEq, Repr

/-- `PathData` from backend/src/types/index.ts (the fields the geometry code
reads: the point sequence and the closed flag). -/
structure PathData where
  points : List Point
  closed : Bool
deriving DecidableEq, Repr

/-- `VectorizationSettings` from backend/src/types/index.ts.  `mode`,
`background` and `unit` are runtime strings (they arrive from JSON and are
range-checked by `validateSettings`); numeric sliders are JS numbers (ℚ). -/
structure VectorizationSettings where
  mode : String
  detail : ℚ
  smoothing : ℚ
  colorLayers : ℚ
  minAreaThreshold : ℚ
  background : String
  targetWidth : ℚ
  targetHeight : ℚ
  unit : String
  threshold : Option ℚ
  removeEdgeRegions : Bool
  minRegionSize : ℚ
  erosionLevel : ℚ
  invert : Bool
deriving DecidableEq, Repr

/-! ## SVG assembler: output dimensions (vectorizer.ts, calculateOutputDimensions) -/

/-- The pair returned by `calculateOutputDimensions`. -/
structure OutputDims where
  outputWidth : ℚ
  outputHeight : ℚ
deriving DecidableEq, Repr

/-- `Vectorizer.calculateOutputDimensions` (vectorizer.ts lines 380–397):
keeps the target dimensions but recomputes whichever one would distort the
source aspect ratio. -/
def calculateOutputDimensions (sourceWidth sourceHeight : ℚ)
    (settings : VectorizationSettings) : OutputDims :=
  let aspectRatio := sourceWidth / sourceHeight
  let outputWidth := settings.targetWidth
  let outputHeight := settings.targetHeight
  if outputWidth / outputHeight > aspectRatio then
    ⟨outputHeight * aspectRatio, outputHeight⟩
  else
    ⟨outputWidth, outputWidth / aspectRatio⟩

/-- The dimension fields of the `stats` object built at the end of
`Vectorizer.convert` (vectorizer.ts lines 87–97): `outputWidth` and
`outputHeight` are copied verbatim from the settings, while the emitted SVG
document's physical size comes from `calculateOutputDimensions`. -/
structure ConversionStatsDims where
  originalWidth : ℚ
  originalHeight : ℚ
  outputWidth : ℚ
  outputHeight : ℚ
deriving DecidableEq, Repr

/-- The stats assembly in `Vectorizer.convert` (vectorizer.ts lines 87–97). -/
def convertStatsDims (originalWidth originalHeight : ℚ)
    (settings : VectorizationSettings) : ConversionStatsDims :=
  { originalWidth := originalWidth
    originalHeight := originalHeight
    outputWidth := settings.targetWidth
    outputHeight := settings.targetHeight }

/-! ## Settings validation (convert.ts, validateSettings) -/

/-- `validateSettings` (backend/src/routes/convert.ts lines 225–259):
returns `some errorMessage` when a check fails, `none` when the settings are
accepted.  The checks appear in source order. -/
def validateSettings (settings : VectorizationSettings) : Option String :=
  if ¬ (settings.mode ∈ ["silhouette", "multicolor", "lineart"]) then
    some "Invalid mode. Must be: silhouette, multicolor, or lineart"
  else if settings.detail < 0 ∨ settings.detail > 100 then
    some "Detail must be between 0 and 100"
  else if settings.smoothing < 0 ∨ settings.smoothing > 100 then
    some "Smoothing must be between 0 and 100"
  else if settings.colorLayers < 2 ∨ settings.colorLayers > 16 then
    some "Color layers must be between 2 and 16"
  else if settings.targetWidth ≤ 0 ∨ settings.targetHeight ≤ 0 then
    some "Target dimensions must be positive"
  else if settings.targetWidth > 100 ∨ settings.targetHeight > 100 then
    some "Target dimensions cannot exceed 100 inches/mm"
  else if ¬ (settings.unit ∈ ["inches", "mm"]) then
    some "Unit must be: inches or mm"
  else if ¬ (settings.background ∈ ["transparent", "remove", "keep"]) then
    some "Background handling must be: transparent, remove, or keep"
  else
    none

/-! ## Cleanup pipeline: threshold and invert steps (applyCleanupOptions) -/

/-- The binarization step of `applyCleanupOptions`:
`binaryPixels[i] = pixels[i] < threshold ? 0 : 255`. -/
def thresholdStep (threshold : ℚ) (pixels : List ℕ) : List ℕ :=
  pixels.map (fun p => if (p : ℚ) < threshold then 0 else 255)

/-- The invert step of `applyCleanupOptions` (runs when `settings.invert`):
`pixels[i] = pixels[i] === 0 ? 255 : 0`. -/
def invertStep (pixels : List ℕ) : List ℕ :=
  pixels.map (fun p => if p = 0 then 255 else 0)

/-- The threshold-then-invert prefix of the cleanup pipeline
(`applyCleanupOptions` with `invert = true`, before the morphology passes). -/
def thresholdInvert (threshold : ℚ) (pixels : List ℕ) : List ℕ :=
  invertStep (thresholdStep threshold pixels)

/-! ## Geometry utilities: polygon area and the multicolor area filter -/

/-- `calculatePolygonArea` (shoelace formula; returns 0 for fewer than
3 points). -/
def calculatePolygonArea (points : List Point) : ℚ :=
  if points.length < 3 then 0
  else
    let n := points.length
    let area := (List.range n).foldl
      (fun acc i =>
        let j := (i + 1) % n
        let pi := points.getD i ⟨0, 0⟩
        let pj := points.getD j ⟨0, 0⟩
        acc + pi.x * pj.y - pj.x * pi.y)
      0
    |area / 2|

/-- A traced output layer of the multicolor processor (the fields built in
`processMulticolor`). -/
structure Layer where
  id : String
  name : String
  colorIndex : ℕ
  paths : List PathData
deriving DecidableEq, Repr

/-- The small-path filter of `processMulticolor` (part_005 lines 894–921):
`minArea = width * height * minAreaThreshold / 100` and
`filteredPaths = paths.filter(path => calculatePolygonArea(path.points) >= minArea)`. -/
def filterSmallPaths (width height minAreaThreshold : ℚ)
    (paths : List PathData) : List PathData :=
  let minArea := width * height * minAreaThreshold / 100
  paths.filter (fun path => calculatePolygonArea path.points ≥ minArea)

/-- The per-color layer emission of `processMulticolor` (part_005): the layer
is pushed only when `filteredPaths.length > 0`, carrying the filtered paths. -/
def emitColorLayer (width height minAreaThreshold : ℚ) (colorIndex : ℕ)
    (paths : List PathData) : Option Layer :=
  let filteredPaths := filterSmallPaths width height minAreaThreshold paths
  if filteredPaths.length > 0 then
    some { id := "layer-" ++ toString colorIndex
           name := "Color " ++ toString (colorIndex + 1)
           colorIndex := colorIndex
           paths := filteredPaths }
  else
    none

/-! ## Theorems -/

/-- C2: `calculateOutputDimensions` preserves the source aspect ratio: for
positive source dimensions and positive target dimensions the emitted
width/height satisfy `|outputW/outputH - sourceW/sourceH| < 1e-6` (in this
exact-rational model the difference is 0); and a 6×6 target on a 2:1-aspect
source yields 6×3 — the height is recomputed, the width kept. -/
theorem calculateOutputDimensions_preserves_aspect
    (sourceWidth sourceHeight : ℚ) (settings : VectorizationSettings)
    (hsw : 0 < sourceWidth) (hsh : 0 < sourceHeight)
    (htw : 0 < settings.targetWidth) (hth : 0 < settings.targetHeight) :
    (|(calculateOutputDimensions sourceWidth sourceHeight settings).outputWidth /
        (calculateOutputDimensions sourceWidth sourceHeight settings).outputHeight -
        sourceWidth / sourceHeight| < 1 / 1000000) ∧
    (calculateOutputDimensions 800 400
        { mode := "silhouette", detail := 50, smoothing := 50, colorLayers := 4,
          minAreaThreshold := 1/10, background := "transparent",
          targetWidth := 6, targetHeight := 6, unit := "inches",
          threshold := some 128, removeEdgeRegions := false, minRegionSize := 0,
          erosionLevel := 0, invert := false } = ⟨6, 3⟩) := by
  constructor
  · have haspect : 0 < sourceWidth / sourceHeight := div_pos hsw hsh
    have hratio :
        (calculateOutputDimensions sourceWidth sourceHeight settings).outputWidth /
          (calculateOutputDimensions sourceWidth sourceHeight settings).outputHeight =
          sourceWidth / sourceHeight := by
      unfold calculateOutputDimensions
      by_cases hgt :
          settings.targetWidth / settings.targetHeight > sourceWidth / sourceHeight
      · simp only [hgt, if_pos]
        rw [mul_comm, mul_div_assoc, div_self (ne_of_gt hth), mul_one]
      · simp only [hgt, if_neg, if_false]
        rw [div_div_eq_mul_div, mul_comm, mul_div_assoc,
          div_self (ne_of_gt htw), mul_one]
    rw [hratio]
    simp
  · unfold calculateOutputDimensions
    norm_num

/-- C2 witness: the aspect-preservation theorem applied at a concrete input
(source 800×400, default 6×6-inch settings). -/
theorem calculateOutputDimensions_preserves_aspect_witness :
    (0 : ℚ) < 800 ∧ (0 : ℚ) < 400 ∧ (0 : ℚ) < 6 ∧
    (|(calculateOutputDimensions 800 400
        { mode := "silhouette", detail := 50, smoothing := 50, colorLayers := 4,
          minAreaThreshold := 1/10, background := "transparent",
          targetWidth := 6, targetHeight := 6, unit := "inches",
          threshold := some 128, removeEdgeRegions := false, minRegionSize := 0,
          erosionLevel := 0, invert := false }).outputWidth /
        (calculateOutputDimensions 800 400
        { mode := "silhouette", detail := 50, smoothing := 50, colorLayers := 4,
          minAreaThreshold := 1/10, background := "transparent",
          targetWidth := 6, targetHeight := 6, unit := "inches",
          threshold := some 128, removeEdgeRegions := false, minRegionSize := 0,
          erosionLevel := 0, invert := false }).outputHeight -
        (800 : ℚ) / 400| < 1 / 1000000) :=
  ⟨by norm_num, by norm_num, by norm_num,
    (calculateOutputDimensions_preserves_aspect 800 400 _
      (by norm_num) (by norm_num) (by norm_num) (by norm_num)).1⟩

/-- C10: the stats built by `Vectorizer.convert` report `outputWidth` and
`outputHeight` verbatim from `settings.targetWidth`/`settings.targetHeight`,
not the aspect-corrected dimensions; so whenever the requested target aspect
ratio differs from the source's, the reported dimensions differ from the
physical size computed by `calculateOutputDimensions` for the emitted SVG. -/
theorem convert_stats_report_target_dims
    (sourceWidth sourceHeight : ℚ) (settings : VectorizationSettings)
    (hsw : 0 < sourceWidth) (hsh : 0 < sourceHeight)
    (htw : 0 < settings.targetWidth) (hth : 0 < settings.targetHeight)
    (hne : settings.targetWidth / settings.targetHeight ≠
      sourceWidth / sourceHeight) :
    (convertStatsDims sourceWidth sourceHeight settings).outputWidth =
      settings.targetWidth ∧
    (convertStatsDims sourceWidth sourceHeight settings).outputHeight =
      settings.targetHeight ∧
    calculateOutputDimensions sourceWidth sourceHeight settings ≠
      ⟨settings.targetWidth, settings.targetHeight⟩ := by
  refine ⟨rfl, rfl, ?_⟩
  intro heq
  have haspect : 0 < sourceWidth / sourceHeight := div_pos hsw hsh
  unfold calculateOutputDimensions at heq
  by_cases hgt :
      settings.targetWidth / settings.targetHeight > sourceWidth / sourceHeight
  · simp only [hgt, if_pos, OutputDims.mk.injEq] at heq
    apply hne
    rw [← heq.1, mul_comm, mul_div_assoc, div_self (ne_of_gt hth), mul_one]
  · simp only [hgt, if_neg, if_false, OutputDims.mk.injEq] at heq
    apply hne
    rw [← heq.2, div_div_eq_mul_div, mul_comm, mul_div_assoc,
      div_self (ne_of_gt htw), mul_one]

/-- C10 witness: a 6×6 target on an 800×400 source — the stats report 6×6
while the emitted document is 6×3. -/
theorem convert_stats_report_target_dims_witness :
    (0 : ℚ) < 800 ∧
    ((6 : ℚ) / 6 ≠ (800 : ℚ) / 400) ∧
    ((convertStatsDims 800 400
        { mode := "silhouette", detail := 50, smoothing := 50, colorLayers := 4,
          minAreaThreshold := 1/10, background := "transparent",
          targetWidth := 6, targetHeight := 6, unit := "inches",
          threshold := some 128, removeEdgeRegions := false, minRegionSize := 0,
          erosionLevel := 0, invert := false }).outputWidth = 6 ∧
      (convertStatsDims 800 400
        { mode := "silhouette", detail := 50, smoothing := 50, colorLayers := 4,
          minAreaThreshold := 1/10, background := "transparent",
          targetWidth := 6, targetHeight := 6, unit := "inches",
          threshold := some 128, removeEdgeRegions := false, minRegionSize := 0,
          erosionLevel := 0, invert := false }).outputHeight = 6 ∧
      calculateOutputDimensions 800 400
        { mode := "silhouette", detail := 50, smoothing := 50, colorLayers := 4,
          minAreaThreshold := 1/10, background := "transparent",
          targetWidth := 6, targetHeight := 6, unit := "inches",
          threshold := some 128, removeEdgeRegions := false, minRegionSize := 0,
          erosionLevel := 0, invert := false } ≠ ⟨6, 6⟩) :=
  ⟨by norm_num, by norm_num,
    convert_stats_report_target_dims 800 400 _
      (by norm_num) (by norm_num) (by norm_num) (by norm_num) (by norm_num)⟩

/-- Unfolding `thresholdInvert` one pixel at a time. -/
theorem thresholdInvert_cons (t : ℚ) (p : ℕ) (ps : List ℕ) :
    thresholdInvert t (p :: ps) =
      (if (p : ℚ) < t then 255 else 0) :: thresholdInvert t ps := by
  simp only [thresholdInvert, thresholdStep, invertStep, List.map_cons]
  by_cases h : (p : ℚ) < t <;> simp [h]

/-- C7 (amended): on binary (0/255) buffers, the threshold-then-invert prefix
of the cleanup pipeline is an involution — applying it twice restores the
original buffer — provided the threshold lies in `(0, 255]` (which includes
the default 128); threshold 0 breaks it, see the counterexample. -/
theorem thresholdInvert_involution (t : ℚ) (pixels : List ℕ)
    (hbin : ∀ p ∈ pixels, p = 0 ∨ p = 255)
    (ht0 : 0 < t) (ht255 : t ≤ 255) :
    thresholdInvert t (thresholdInvert t pixels) = pixels := by
  induction pixels with
  | nil => rfl
  | cons p ps ih =>
    have hp := hbin p (by simp)
    have hps : ∀ q ∈ ps, q = 0 ∨ q = 255 := fun q hq => hbin q (by simp [hq])
    rw [thresholdInvert_cons, thresholdInvert_cons, ih hps]
    rcases hp with hp | hp <;> subst hp
    · have h1 : ((0 : ℕ) : ℚ) < t := by exact_mod_cast ht0
      have h2 : ¬ ((255 : ℕ) : ℚ) < t := by push_cast; linarith
      rw [if_pos h1, if_neg h2]
    · have h1 : ¬ ((255 : ℕ) : ℚ) < t := by push_cast; linarith
      have h2 : ((0 : ℕ) : ℚ) < t := by exact_mod_cast ht0
      rw [if_neg h1, if_pos h2]

/-- C7 witness: the involution theorem applied to the binary buffer
`[0, 255]` with the default threshold 128. -/
theorem thresholdInvert_involution_witness :
    (∀ p ∈ [0, 255], p = 0 ∨ p = 255) ∧ (0 : ℚ) < 128 ∧ (128 : ℚ) ≤ 255 ∧
    thresholdInvert 128 (thresholdInvert 128 [0, 255]) = [0, 255] :=
  ⟨by decide, by norm_num, by norm_num,
    thresholdInvert_involution 128 [0, 255] (by decide)
      (by norm_num) (by norm_num)⟩

/-- C7 counterexample: with threshold 0 (inside the documented 0–255 range)
the double threshold-then-invert pass does NOT restore the binary buffer
`[255]`: both passes produce `[0]`. -/
theorem thresholdInvert_not_involution_at_zero :
    (∀ p ∈ [255], p = 0 ∨ p = 255) ∧
    thresholdInvert 0 (thresholdInvert 0 [255]) ≠ [255] := by
  constructor
  · decide
  · rw [thresholdInvert_cons]
    norm_num
    rw [thresholdInvert_cons]
    norm_num [thresholdInvert, thresholdStep, invertStep]

/-- C5: in multicolor mode every path whose shoelace polygon area is below
`minAreaThreshold% × image area` is dropped by the small-path filter, every
path retained in an emitted layer has area at or above that bound, and
`calculatePolygonArea` returns 0 for fewer than 3 points. -/
theorem multicolor_area_filter (width height thr : ℚ) (colorIndex : ℕ)
    (paths : List PathData) :
    (∀ L, emitColorLayer width height thr colorIndex paths = some L →
      ∀ p ∈ L.paths, width * height * thr / 100 ≤ calculatePolygonArea p.points) ∧
    (∀ p ∈ paths, calculatePolygonArea p.points < width * height * thr / 100 →
      p ∉ filterSmallPaths width height thr paths) ∧
    (∀ pts : List Point, pts.length < 3 → calculatePolygonArea pts = 0) := by
  refine ⟨?_, ?_, ?_⟩
  · intro L hL p hp
    simp only [emitColorLayer] at hL
    split at hL
    · cases hL
      simp only [filterSmallPaths, List.mem_filter, decide_eq_true_eq] at hp
      exact hp.2
    · cases hL
  · intro p _ harea hmem
    simp only [filterSmallPaths, List.mem_filter, decide_eq_true_eq] at hmem
    linarith [hmem.2]
  · intro pts h
    unfold calculatePolygonArea
    rw [if_pos h]

/-- C5 witness: the filter theorem applied to a concrete one-path layer (a
single-point degenerate path, image 10×10, threshold 0%). -/
theorem multicolor_area_filter_witness :
    (emitColorLayer 10 10 0 0 [⟨[⟨0, 0⟩], true⟩] =
      some { id := "layer-" ++ toString 0, name := "Color " ++ toString (0 + 1),
             colorIndex := 0, paths := [⟨[⟨0, 0⟩], true⟩] }) ∧
    (∀ p ∈ ({ id := "layer-" ++ toString 0, name := "Color " ++ toString (0 + 1),
              colorIndex := 0, paths := [⟨[⟨0, 0⟩], true⟩] } : Layer).paths,
      (10 : ℚ) * 10 * 0 / 100 ≤ calculatePolygonArea p.points) := by
  have hemit : emitColorLayer 10 10 0 0 [⟨[⟨0, 0⟩], true⟩] =
      some { id := "layer-" ++ toString 0, name := "Color " ++ toString (0 + 1),
             colorIndex := 0, paths := [⟨[⟨0, 0⟩], true⟩] } := by
    norm_num [emitColorLayer, filterSmallPaths, calculatePolygonArea]
  exact ⟨hemit,
    (multicolor_area_filter 10 10 0 0 [⟨[⟨0, 0⟩], true⟩]).1 _ hemit⟩

/-- Settings that are valid on every check `validateSettings` performs, but
whose `minAreaThreshold` (50, outside the documented 0–5 range) and
`threshold` (999, outside the documented 0–255 range) violate the documented
ranges. -/
def outOfRangeSettings : VectorizationSettings :=
  { mode := "multicolor", detail := 50, smoothing := 50, colorLayers := 4,
    minAreaThreshold := 50, background := "keep",
    targetWidth := 6, targetHeight := 6, unit := "inches",
    threshold := some 999, removeEdgeRegions := false, minRegionSize := 0,
    erosionLevel := 0, invert := false }

/-- C9 counterexample: `validateSettings` accepts (returns no error for)
settings whose `minAreaThreshold` is 50 — far outside 0–5 — and whose
`threshold` is 999 — outside 0–255; neither field is checked, so the
conversion is NOT rejected before pixel work begins for these out-of-range
values. -/
theorem validateSettings_accepts_out_of_range :
    (5 : ℚ) < outOfRangeSettings.minAreaThreshold ∧
    outOfRangeSettings.threshold = some 999 ∧ ¬ ((999 : ℚ) ≤ 255) ∧
    validateSettings outOfRangeSettings = none := by
  refine ⟨by norm_num [outOfRangeSettings], rfl, by norm_num, ?_⟩
  simp only [validateSettings, outOfRangeSettings]
  norm_num

/-- C9 (amended): every settings object violating one of the ranges that
`validateSettings` actually checks — unsupported mode, detail or smoothing
outside 0–100, colorLayers outside 2–16, nonpositive or over-100 target
dimensions, unsupported unit or background — is rejected with an error
before any pixel work begins.  (`threshold` and `minAreaThreshold` are not
validated; see the counterexample.) -/
theorem validateSettings_rejects_checked_violations
    (s : VectorizationSettings)
    (hviol :
      ¬ (s.mode ∈ ["silhouette", "multicolor", "lineart"]) ∨
      s.detail < 0 ∨ s.detail > 100 ∨
      s.smoothing < 0 ∨ s.smoothing > 100 ∨
      s.colorLayers < 2 ∨ s.colorLayers > 16 ∨
      s.targetWidth ≤ 0 ∨ s.targetHeight ≤ 0 ∨
      s.targetWidth > 100 ∨ s.targetHeight > 100 ∨
      ¬ (s.unit ∈ ["inches", "mm"]) ∨
      ¬ (s.background ∈ ["transparent", "remove", "keep"])) :
    (validateSettings s).isSome := by
  unfold validateSettings
  split_ifs <;> simp_all

/-- C9 witness: the rejection theorem applied to settings with detail 150
(outside 0–100): validation reports an error. -/
theorem validateSettings_rejects_checked_violations_witness :
    ((150 : ℚ) > 100) ∧
    (validateSettings
      { mode := "silhouette", detail := 150, smoothing := 50, colorLayers := 4,
        minAreaThreshold := 1/10, background := "transparent",
        targetWidth := 6, targetHeight := 6, unit := "inches",
        threshold := some 128, removeEdgeRegions := false, minRegionSize := 0,
        erosionLevel := 0, invert := false }).isSome :=
  ⟨by norm_num,
    validateSettings_rejects_checked_violations _
      (Or.inr (Or.inr (Or.inl (by norm_num))))⟩

/-! ## Multicolor mode: per-layer tracing with failure isolation
(vectorizer.ts, processMulticolor lines 212–233) -/

/-- `toHex` inside `rgbToHex`: `Math.round(Math.max(0, Math.min(255, n)))`
rendered in base 16, left-padded to two digits.  Channels are ℕ here, so
the clamp below 0 and the rounding are identities. -/
def toHex (n : ℕ) : String :=
  let hex := String.mk (Nat.toDigits 16 (min 255 n))
  if hex.length = 1 then "0" ++ hex else hex

/-- `rgbToHex` from the color utilities. -/
def rgbToHex (color : RGB) : String :=
  "#" ++ toHex color.r ++ toHex color.g ++ toHex color.b

/-- One entry of the `allLayerPaths` array built by `processMulticolor`:
the extracted path strings, the layer's hex fill color and display name. -/
structure MulticolorLayerData where
  paths : List String
  color : String
  name : String
deriving DecidableEq, Repr

/-- What a single color index contributes to `allLayerPaths`: the external
trace (`potraceTrace` + `extractPaths`, supplied as `colorTrace`) either
throws — the `catch` logs and contributes nothing — or yields path strings,
pushed as a layer only when nonempty. -/
def layerContribution (colorTrace : ℕ → Except String (List String))
    (sortedPalette : List RGB) (colorIndex : ℕ) : Option MulticolorLayerData :=
  match colorTrace colorIndex with
  | .error _ => none
  | .ok paths =>
    if paths.length > 0 then
      some { paths := paths
             color := rgbToHex (sortedPalette.getD colorIndex ⟨0, 0, 0⟩)
             name := "Color " ++ toString (colorIndex + 1) }
    else none

/-- The per-color loop of `processMulticolor` (vectorizer.ts lines 212–233)
building `allLayerPaths`: each color index of the sorted palette is traced
inside a `try`; a trace failure is caught locally and the loop continues. -/
def processMulticolorLayers (colorTrace : ℕ → Except String (List String))
    (sortedPalette : List RGB) : List MulticolorLayerData :=
  (List.range sortedPalette.length).foldl
    (fun acc colorIndex =>
      match colorTrace colorIndex with
      | .error _ => acc
      | .ok paths =>
        if paths.length > 0 then
          acc ++ [{ paths := paths
                    color := rgbToHex (sortedPalette.getD colorIndex ⟨0, 0, 0⟩)
                    name := "Color " ++ toString (colorIndex + 1) }]
        else acc)
    []

/-- Generic shape of the accumulation loop: folding "append the contribution
when present" equals `filterMap` of the contributions. -/
theorem foldl_opt_append {α : Type} (f : ℕ → Option α) (l : List ℕ)
    (init : List α) :
    l.foldl (fun acc i => (f i).elim acc (fun x => acc ++ [x])) init =
      init ++ l.filterMap f := by
  induction l generalizing init with
  | nil => simp
  | cons i l ih =>
    simp only [List.foldl_cons, List.filterMap_cons]
    cases hf : f i with
    | none => simp [hf, ih]
    | some x => simp [hf, ih]

/-- The multicolor loop computes exactly the per-color contributions: each
color's presence and content in `allLayerPaths` depends only on that color's
own trace result. -/
theorem processMulticolorLayers_eq_filterMap
    (colorTrace : ℕ → Except String (List String)) (sortedPalette : List RGB) :
    processMulticolorLayers colorTrace sortedPalette =
      (List.range sortedPalette.length).filterMap
        (layerContribution colorTrace sortedPalette) := by
  unfold processMulticolorLayers
  have hfun : (fun (acc : List MulticolorLayerData) colorIndex =>
      match colorTrace colorIndex with
      | .error _ => acc
      | .ok paths =>
        if paths.length > 0 then
          acc ++ [{ paths := paths
                    color := rgbToHex (sortedPalette.getD colorIndex ⟨0, 0, 0⟩)
                    name := "Color " ++ toString (colorIndex + 1) }]
        else acc)
      = (fun acc i =>
          (layerContribution colorTrace sortedPalette i).elim acc
            (fun x => acc ++ [x])) := by
    funext acc i
    unfold layerContribution
    cases h : colorTrace i with
    | error e => simp
    | ok paths => by_cases hlen : paths.length > 0 <;> simp [hlen]
  rw [hfun, foldl_opt_append]
  simp

/-- C6: in Multicolor mode a trace failure on one color layer is recovered
locally: the failing color contributes no layer, the output layer set equals
the per-color contributions of any trace that agrees on all other colors
(so every remaining color layer is still traced and emitted, unaffected by
the failure), and the conversion still returns a layer list rather than
propagating the error. -/
theorem multicolor_trace_failure_isolated
    (colorTrace colorTrace2 : ℕ → Except String (List String))
    (sortedPalette : List RGB) (c : ℕ) (e : String)
    (hfail : colorTrace c = Except.error e)
    (hagree : ∀ j, j ≠ c → colorTrace2 j = colorTrace j) :
    (processMulticolorLayers colorTrace sortedPalette =
      (List.range sortedPalette.length).filterMap
        (fun j => if j = c then none
          else layerContribution colorTrace2 sortedPalette j)) ∧
    (∀ L ∈ processMulticolorLayers colorTrace sortedPalette,
      ∃ j, j < sortedPalette.length ∧ j ≠ c ∧
        layerContribution colorTrace sortedPalette j = some L) := by
  have hmain : processMulticolorLayers colorTrace sortedPalette =
      (List.range sortedPalette.length).filterMap
        (fun j => if j = c then none
          else layerContribution colorTrace2 sortedPalette j) := by
    rw [processMulticolorLayers_eq_filterMap]
    apply List.filterMap_congr
    intro j _
    by_cases hj : j = c
    · subst hj
      simp [layerContribution, hfail]
    · rw [if_neg hj]
      unfold layerContribution
      rw [hagree j hj]
  refine ⟨hmain, ?_⟩
  intro L hL
  rw [hmain] at hL
  rcases List.mem_filterMap.mp hL with ⟨j, hjmem, hjeq⟩
  by_cases hj : j = c
  · rw [if_pos hj] at hjeq
    cases hjeq
  · rw [if_neg hj] at hjeq
    unfold layerContribution at hjeq
    rw [hagree j hj] at hjeq
    refine ⟨j, List.mem_range.mp hjmem, hj, ?_⟩
    unfold layerContribution
    exact hjeq

/-- C6 witness: the isolation theorem at a concrete two-color palette where
tracing color 0 fails and color 1 succeeds. -/
theorem multicolor_trace_failure_isolated_witness :
    ((fun j => if j = 0 then Except.error "trace failed"
        else Except.ok ["M 0 0 L 1 1"] : ℕ → Except String (List String)) 0 =
      Except.error "trace failed") ∧
    (∀ j : ℕ, j ≠ 0 →
      (fun _ : ℕ => (Except.ok ["M 0 0 L 1 1"] : Except String (List String))) j =
      (fun j => if j = 0 then Except.error "trace failed"
        else Except.ok ["M 0 0 L 1 1"]) j) ∧
    (processMulticolorLayers
        (fun j => if j = 0 then Except.error "trace failed"
          else Except.ok ["M 0 0 L 1 1"]) [⟨0, 0, 0⟩, ⟨255, 255, 255⟩] =
      (List.range 2).filterMap
        (fun j => if j = 0 then none
          else layerContribution
            (fun _ => Except.ok ["M 0 0 L 1 1"]) [⟨0, 0, 0⟩, ⟨255, 255, 255⟩] j)) := by
  refine ⟨by simp, fun j hj => by simp [hj], ?_⟩
  exact (multicolor_trace_failure_isolated
    (fun j => if j = 0 then Except.error "trace failed"
      else Except.ok ["M 0 0 L 1 1"])
    (fun _ => Except.ok ["M 0 0 L 1 1"])
    [⟨0, 0, 0⟩, ⟨255, 255, 255⟩] 0 "trace failed"
    (by simp) (fun j hj => by simp [hj])).1

/-! ## Cleanup pipeline: morphological erosion (applyErosion) -/

/-- The 3×3 all-black test of `applyErosion`'s inner loops: every neighbor
`(x + dx, y + dy)` for `dx, dy ∈ {-1, 0, 1}` is black (value 0) in the
current buffer.  `dy`/`dx` below range over `{0, 1, 2}` with the offset
folded in (`y - 1 + dy`), which is exact since the test is only evaluated
for interior pixels (`x, y ≥ 1`). -/
def allBlackWindow (current : List ℕ) (w x y : ℕ) : Bool :=
  (List.range 3).all fun dy =>
    (List.range 3).all fun dx =>
      current.getD ((y - 1 + dy) * w + (x - 1 + dx)) 255 == 0

/-- One round of `applyErosion` (part_005 lines 1370–1402): the next buffer
starts all white (255); an interior pixel (`1 ≤ x ≤ w-2`, `1 ≤ y ≤ h-2`)
becomes black only when its whole 3×3 window is black in the current
buffer. -/
def erodeOnce (current : List ℕ) (w h : ℕ) : List ℕ :=
  (List.range (w * h)).map fun idx =>
    let y := idx / w
    let x := idx % w
    if 1 ≤ y ∧ y + 1 < h ∧ 1 ≤ x ∧ x + 1 < w ∧ allBlackWindow current w x y
    then 0 else 255

/-- `applyErosion`: iterate `erodeOnce` for the requested number of
rounds. -/
def applyErosion (pixels : List ℕ) (w h : ℕ) : ℕ → List ℕ
  | 0 => pixels
  | n + 1 => erodeOnce (applyErosion pixels w h n) w h

/-- Number of black (0) pixels of a `w × h` buffer. -/
def blackCount (pixels : List ℕ) (w h : ℕ) : ℕ :=
  ((List.range (w * h)).filter fun i => pixels.getD i 255 = 0).length

/-- `getD` of a mapped range. -/
theorem getD_map_range (n i d : ℕ) (f : ℕ → ℕ) :
    ((List.range n).map f).getD i d = if i < n then f i else d := by
  rw [List.getD_eq_getElem?_getD]
  by_cases h : i < n
  · rw [List.getElem?_eq_getElem (by simpa using h)]
    simp [h]
  · rw [List.getElem?_eq_none (by simpa using h)]
    simp [h]

/-- Row-major index arithmetic: `(y*w + x) / w = y` and `(y*w + x) % w = x`
for `x < w`. -/
theorem rowMajor_div_mod (x y w : ℕ) (hx : x < w) :
    (y * w + x) / w = y ∧ (y * w + x) % w = x := by
  have hw : 0 < w := by omega
  constructor
  · rw [mul_comm, Nat.mul_add_div hw, Nat.div_eq_of_lt hx, add_zero]
  · rw [mul_comm, Nat.mul_add_mod, Nat.mod_eq_of_lt hx]

/-- Row-major index bound: `y*w + x < w*h` for `x < w`, `y < h`. -/
theorem rowMajor_lt (x y w h : ℕ) (hx : x < w) (hy : y < h) :
    y * w + x < w * h := by
  calc y * w + x < y * w + w := by omega
    _ = (y + 1) * w := by ring
    _ ≤ h * w := mul_le_mul_right' (by omega) w
    _ = w * h := Nat.mul_comm h w

/-- The value `erodeOnce` writes at an in-range coordinate. -/
theorem erodeOnce_getD (current : List ℕ) (w h x y : ℕ)
    (hx : x < w) (hy : y < h) :
    (erodeOnce current w h).getD (y * w + x) 255 =
      if 1 ≤ y ∧ y + 1 < h ∧ 1 ≤ x ∧ x + 1 < w ∧ allBlackWindow current w x y
      then 0 else 255 := by
  unfold erodeOnce
  rw [getD_map_range, if_pos (rowMajor_lt x y w h hx hy)]
  rw [(rowMajor_div_mod x y w hx).1, (rowMajor_div_mod x y w hx).2]

/-- A pixel black after one erosion round was black before (its own window
contains it), so one round never increases the black count. -/
theorem erodeOnce_blackCount_le (current : List ℕ) (w h : ℕ) :
    blackCount (erodeOnce current w h) w h ≤ blackCount current w h := by
  unfold blackCount
  rw [← List.countP_eq_length_filter, ← List.countP_eq_length_filter]
  apply List.countP_mono_left
  intro i hi hp
  simp only [decide_eq_true_eq] at hp ⊢
  have hiwh : i < w * h := List.mem_range.mp hi
  have hw : 0 < w := by
    rcases Nat.eq_zero_or_pos w with h0 | h0
    · subst h0; simp at hiwh
    · exact h0
  have hx : i % w < w := Nat.mod_lt _ hw
  have hy : i / w < h := Nat.div_lt_iff_lt_mul hw |>.mpr (by
    calc i < w * h := hiwh
      _ = h * w := Nat.mul_comm w h)
  have hi_eq : (i / w) * w + i % w = i := by
    rw [mul_comm, Nat.div_add_mod]
  rw [← hi_eq] at hp
  rw [erodeOnce_getD current w h _ _ hx hy] at hp
  split at hp
  · rename_i hcond
    obtain ⟨hy1, hy2, hx1, hx2, hwin⟩ := hcond
    simp only [allBlackWindow, List.all_eq_true, List.mem_range, beq_iff_eq] at hwin
    have := hwin 1 (by omega) 1 (by omega)
    have harith : (i / w - 1 + 1) * w + (i % w - 1 + 1) = i := by
      have e1 : i / w - 1 + 1 = i / w := by omega
      have e2 : i % w - 1 + 1 = i % w := by omega
      rw [e1, e2, hi_eq]
    rwa [harith] at this
  · exact absurd hp (by norm_num)

/-- C3: in each erosion round a pixel is black in the output only if it and
all 8 neighbors of its 3×3 window were black in the input; border pixels are
always forced white; and consequently the black-pixel count after N rounds
is at most the count after N−1 rounds, for every N ≥ 1. -/
theorem applyErosion_spec (pixels : List ℕ) (w h N : ℕ) (hN : 1 ≤ N) :
    (∀ n, applyErosion pixels w h (n + 1) =
      erodeOnce (applyErosion pixels w h n) w h) ∧
    (∀ x y, x < w → y < h →
      (erodeOnce pixels w h).getD (y * w + x) 255 = 0 →
      ∀ dy, dy < 3 → ∀ dx, dx < 3 →
        pixels.getD ((y - 1 + dy) * w + (x - 1 + dx)) 255 = 0) ∧
    (∀ x y, x < w → y < h → (x = 0 ∨ x + 1 = w ∨ y = 0 ∨ y + 1 = h) →
      (erodeOnce pixels w h).getD (y * w + x) 255 = 255) ∧
    blackCount (applyErosion pixels w h N) w h ≤
      blackCount (applyErosion pixels w h (N - 1)) w h := by
  refine ⟨fun n => rfl, ?_, ?_, ?_⟩
  · intro x y hx hy hblack dy hdy dx hdx
    rw [erodeOnce_getD pixels w h x y hx hy] at hblack
    split at hblack
    · rename_i hcond
      obtain ⟨hy1, hy2, hx1, hx2, hwin⟩ := hcond
      simp only [allBlackWindow, List.all_eq_true, List.mem_range,
        beq_iff_eq] at hwin
      exact hwin dy (by omega) dx (by omega)
    · exact absurd hblack (by norm_num)
  · intro x y hx hy hborder
    rw [erodeOnce_getD pixels w h x y hx hy]
    rw [if_neg]
    intro hcond
    obtain ⟨hy1, hy2, hx1, hx2, _⟩ := hcond
    omega
  · obtain ⟨n, rfl⟩ : ∃ n, N = n + 1 := ⟨N - 1, by omega⟩
    have : applyErosion pixels w h (n + 1) =
        erodeOnce (applyErosion pixels w h n) w h := rfl
    rw [this, Nat.add_sub_cancel]
    exact erodeOnce_blackCount_le _ w h

/-- C3 witness: the erosion theorem on a 3×3 all-black buffer with one
round: only the single interior pixel can survive, and the black count drops
from 9 to at most 9. -/
theorem applyErosion_spec_witness :
    1 ≤ 1 ∧
    ((∀ n, applyErosion (List.replicate 9 0) 3 3 (n + 1) =
        erodeOnce (applyErosion (List.replicate 9 0) 3 3 n) 3 3) ∧
      (∀ x y, x < 3 → y < 3 →
        (erodeOnce (List.replicate 9 0) 3 3).getD (y * 3 + x) 255 = 0 →
        ∀ dy, dy < 3 → ∀ dx, dx < 3 →
          (List.replicate 9 0).getD ((y - 1 + dy) * 3 + (x - 1 + dx)) 255 = 0) ∧
      (∀ x y, x < 3 → y < 3 → (x = 0 ∨ x + 1 = 3 ∨ y = 0 ∨ y + 1 = 3) →
        (erodeOnce (List.replicate 9 0) 3 3).getD (y * 3 + x) 255 = 255) ∧
      blackCount (applyErosion (List.replicate 9 0) 3 3 1) 3 3 ≤
        blackCount (applyErosion (List.replicate 9 0) 3 3 (1 - 1)) 3 3) :=
  ⟨le_refl 1, applyErosion_spec (List.replicate 9 0) 3 3 1 (le_refl 1)⟩

/-! ## Geometry utilities: Douglas–Peucker simplification (simplifyPath)

The source computes `perpendicularDistance` with a final `Math.sqrt`; since
the square root is irrational, the embedding takes the distance function as
a parameter `pd` (the endpoint/termination theorems below hold for every
`pd`, in particular for the source's Euclidean point-to-segment distance),
and `perpendicularDistanceSq` gives the source formula up to that final
square root — on configurations where the true distance is 0 (collinear
points) the two agree exactly. -/

/-- `perpendicularDistance` from the geometry utilities, up to the final
`Math.sqrt`: squared distance from `point` to the segment
`lineStart–lineEnd` (the parameter `t` is clamped to the segment). -/
def perpendicularDistanceSq (point lineStart lineEnd : Point) : ℚ :=
  let dx := lineEnd.x - lineStart.x
  let dy := lineEnd.y - lineStart.y
  if dx = 0 ∧ dy = 0 then
    (point.x - lineStart.x) ^ 2 + (point.y - lineStart.y) ^ 2
  else
    let t := ((point.x - lineStart.x) * dx + (point.y - lineStart.y) * dy) /
      (dx * dx + dy * dy)
    let nearest : ℚ × ℚ :=
      if t < 0 then (lineStart.x, lineStart.y)
      else if t > 1 then (lineEnd.x, lineEnd.y)
      else (lineStart.x + t * dx, lineStart.y + t * dy)
    (point.x - nearest.1) ^ 2 + (point.y - nearest.2) ^ 2

/-- The maximum-distance scan of `simplifyPath`: starting from
`maxDist = 0`, `maxIndex = 0`, scan `i = 1 .. n` and record the strictly
largest value and its index (`f i` is the distance of point `i` from the
endpoint chord). -/
def maxDistFold (f : ℕ → ℚ) (n : ℕ) : ℚ × ℕ :=
  (List.range' 1 n).foldl (fun st i => if f i > st.1 then (f i, i) else st)
    (0, 0)

/-- The `maxDist`/`maxIndex` computation of `simplifyPath` over the interior
points `i = 1 .. points.length - 2`. -/
def findMaxDist (pd : Point → Point → Point → ℚ) (points : List Point) :
    ℚ × ℕ :=
  maxDistFold
    (fun i => pd (points.getD i ⟨0, 0⟩) (points.getD 0 ⟨0, 0⟩)
      (points.getD (points.length - 1) ⟨0, 0⟩))
    (points.length - 1 - 1)

/-- `simplifyPath` with explicit recursion fuel.  Each terminating run of
the source recurses on strictly shorter slices, so fuel `length + 1`
suffices for every run that returns; `none` models the runs on which the
JavaScript function recurses without shortening (possible only for negative
tolerance) and dies by stack overflow. -/
def simplifyPathF (pd : Point → Point → Point → ℚ) :
    ℕ → List Point → ℚ → Option (List Point)
  | 0, _, _ => none
  | fuel + 1, points, tolerance =>
    if points.length ≤ 2 then some points
    else
      if (findMaxDist pd points).1 > tolerance then
        match simplifyPathF pd fuel (points.take ((findMaxDist pd points).2 + 1)) tolerance,
          simplifyPathF pd fuel (points.drop (findMaxDist pd points).2) tolerance with
        | some leftPoints, some rightPoints =>
          some (leftPoints.dropLast ++ rightPoints)
        | _, _ => none
      else
        some [points.getD 0 ⟨0, 0⟩, points.getD (points.length - 1) ⟨0, 0⟩]

/-- `simplifyPath` (Douglas–Peucker, geometry utilities): recursively split
at the interior point of maximum chord distance while it exceeds the
tolerance, else keep only the two endpoints. -/
def simplifyPath (pd : Point → Point → Point → ℚ) (points : List Point)
    (tolerance : ℚ) : Option (List Point) :=
  simplifyPathF pd (points.length + 1) points tolerance

/-- Unfolding one step of the max-distance scan. -/
theorem maxDistFold_succ (f : ℕ → ℚ) (n : ℕ) :
    maxDistFold f (n + 1) =
      if f (1 + n) > (maxDistFold f n).1 then (f (1 + n), 1 + n)
      else maxDistFold f n := by
  unfold maxDistFold
  rw [List.range'_concat, List.foldl_append]
  simp

/-- The scanned maximum is never below its 0 start value. -/
theorem maxDistFold_nonneg (f : ℕ → ℚ) (n : ℕ) : 0 ≤ (maxDistFold f n).1 := by
  induction n with
  | zero => exact le_refl 0
  | succ n ih =>
    rw [maxDistFold_succ]
    split
    · rename_i hgt
      exact le_of_lt (lt_of_le_of_lt ih hgt)
    · exact ih

/-- When the scanned maximum is positive, its index is one of the scanned
interior indices `1 .. n`. -/
theorem maxDistFold_pos_bounds (f : ℕ → ℚ) (n : ℕ)
    (hpos : 0 < (maxDistFold f n).1) :
    1 ≤ (maxDistFold f n).2 ∧ (maxDistFold f n).2 < 1 + n := by
  induction n with
  | zero => exact absurd hpos (by norm_num [maxDistFold])
  | succ n ih =>
    rw [maxDistFold_succ] at hpos ⊢
    split at hpos
    · rename_i hgt
      rw [if_pos hgt]
      exact ⟨by omega, by omega⟩
    · rename_i hle
      rw [if_neg hle]
      have := ih hpos
      omega

/-- When every scanned value is at most `tol` (and `0 ≤ tol`), so is the
scanned maximum. -/
theorem maxDistFold_le (f : ℕ → ℚ) (n : ℕ) (tol : ℚ) (h0 : 0 ≤ tol)
    (hall : ∀ i, 1 ≤ i → i < 1 + n → f i ≤ tol) :
    (maxDistFold f n).1 ≤ tol := by
  induction n with
  | zero => exact h0
  | succ n ih =>
    rw [maxDistFold_succ]
    split
    · exact hall (1 + n) (by omega) (by omega)
    · exact ih (fun i h1 h2 => hall i h1 (by omega))

/-- A positive scanned maximum pins `maxIndex` to an interior index. -/
theorem findMaxDist_pos_bounds (pd : Point → Point → Point → ℚ)
    (pts : List Point) (hpos : 0 < (findMaxDist pd pts).1) :
    1 ≤ (findMaxDist pd pts).2 ∧
      (findMaxDist pd pts).2 < 1 + (pts.length - 1 - 1) :=
  maxDistFold_pos_bounds _ _ hpos

/-- The head of a nonempty list is its 0th default-read. -/
theorem head?_eq_getD (pts : List Point) (h : 0 < pts.length) :
    pts.head? = some (pts.getD 0 ⟨0, 0⟩) := by
  rw [List.head?_eq_getElem?, List.getD_eq_getElem?_getD,
    List.getElem?_eq_getElem h]
  simp

/-- The last element of a nonempty list is its (length−1)th default-read. -/
theorem getLast?_eq_getD (pts : List Point) (h : 0 < pts.length) :
    pts.getLast? = some (pts.getD (pts.length - 1) ⟨0, 0⟩) := by
  rw [List.getLast?_eq_getElem?, List.getD_eq_getElem?_getD,
    List.getElem?_eq_getElem (by omega : pts.length - 1 < pts.length)]
  simp

/-- For nonnegative tolerance, `simplifyPath`'s recursion always shortens
its slices, so it succeeds within the fuel bound and keeps the endpoints:
the result starts with the input's first point and ends with its last. -/
theorem simplifyPathF_success (pd : Point → Point → Point → ℚ) (tol : ℚ)
    (htol : 0 ≤ tol) :
    ∀ fuel pts, pts.length < fuel →
      ∃ r, simplifyPathF pd fuel pts tol = some r ∧
        r.head? = pts.head? ∧ r.getLast? = pts.getLast? ∧
        (2 ≤ pts.length → 2 ≤ r.length) := by
  intro fuel
  induction fuel with
  | zero => intro pts h; omega
  | succ fuel ih =>
    intro pts hfuel
    by_cases h2 : pts.length ≤ 2
    · exact ⟨pts, by simp [simplifyPathF, h2], rfl, rfl, fun h => h⟩
    · push_neg at h2
      by_cases hgt : (findMaxDist pd pts).1 > tol
      · have hpos : 0 < (findMaxDist pd pts).1 := lt_of_le_of_lt htol hgt
        have hbounds := findMaxDist_pos_bounds pd pts hpos
        have hmi1 : 1 ≤ (findMaxDist pd pts).2 := hbounds.1
        have hmi2 : (findMaxDist pd pts).2 + 1 < pts.length := by omega
        have hlt : (pts.take ((findMaxDist pd pts).2 + 1)).length =
            (findMaxDist pd pts).2 + 1 := by
          rw [List.length_take]; omega
        obtain ⟨lr, hlr_eq, hlr_h, hlr_l, hlr_len⟩ :=
          ih (pts.take ((findMaxDist pd pts).2 + 1)) (by rw [hlt]; omega)
        obtain ⟨rr, hrr_eq, hrr_h, hrr_l, hrr_len⟩ :=
          ih (pts.drop ((findMaxDist pd pts).2)) (by rw [List.length_drop]; omega)
        have hlr2 : 2 ≤ lr.length := hlr_len (by rw [hlt]; omega)
        have hrr2 : 2 ≤ rr.length := hrr_len (by rw [List.length_drop]; omega)
        refine ⟨lr.dropLast ++ rr, ?_, ?_, ?_, ?_⟩
        · simp only [simplifyPathF]
          rw [if_neg (by omega : ¬ pts.length ≤ 2), if_pos hgt, hlr_eq, hrr_eq]
        · rw [List.head?_append]
          have hdl : lr.dropLast.head? = lr.head? := by
            rw [List.dropLast_eq_take, List.head?_take,
              if_neg (by omega : ¬ lr.length - 1 = 0)]
          rw [hdl, hlr_h, List.head?_take,
            if_neg (by omega : ¬ (findMaxDist pd pts).2 + 1 = 0)]
          rw [head?_eq_getD pts (by omega)]
          exact Option.or_some
        · rw [List.getLast?_append]
          have h1 : rr.getLast? = pts.getLast? := by
            rw [hrr_l, List.getLast?_eq_getElem?, List.length_drop,
              List.getElem?_drop, List.getLast?_eq_getElem?]
            congr 1
            omega
          rw [h1, getLast?_eq_getD pts (by omega)]
          exact Option.or_some
        · intro _
          rw [List.length_append, List.length_dropLast]
          omega
      · refine ⟨[pts.getD 0 ⟨0, 0⟩, pts.getD (pts.length - 1) ⟨0, 0⟩], ?_,
          ?_, ?_, ?_⟩
        · simp only [simplifyPathF]
          rw [if_neg (by omega : ¬ pts.length ≤ 2), if_neg hgt]
        · rw [head?_eq_getD pts (by omega)]
          rfl
        · rw [getLast?_eq_getD pts (by omega)]
          rfl
        · intro _
          simp

/-- When the tolerance dominates every interior deviation, the scan's
maximum does not exceed it, so `simplifyPath` returns just the endpoints. -/
theorem simplifyPathF_endpoints (pd : Point → Point → Point → ℚ)
    (pts : List Point) (tol : ℚ) (fuel : ℕ)
    (hlen : 2 ≤ pts.length) (hfuel : pts.length < fuel) (htol : 0 ≤ tol)
    (hall : ∀ i, 1 ≤ i → i + 1 < pts.length →
      pd (pts.getD i ⟨0, 0⟩) (pts.getD 0 ⟨0, 0⟩)
        (pts.getD (pts.length - 1) ⟨0, 0⟩) ≤ tol) :
    simplifyPathF pd fuel pts tol =
      some [pts.getD 0 ⟨0, 0⟩, pts.getD (pts.length - 1) ⟨0, 0⟩] := by
  obtain ⟨fuel, rfl⟩ : ∃ n, fuel = n + 1 := ⟨fuel - 1, by omega⟩
  by_cases h2 : pts.length ≤ 2
  · have hlen2 : pts.length = 2 := by omega
    obtain ⟨a, b, rfl⟩ := List.length_eq_two.mp hlen2
    simp [simplifyPathF]
  · push_neg at h2
    have hle : (findMaxDist pd pts).1 ≤ tol := by
      apply maxDistFold_le _ _ _ htol
      intro i h1 hi
      exact hall i h1 (by omega)
    simp only [simplifyPathF]
    rw [if_neg (by omega : ¬ pts.length ≤ 2), if_neg (by exact not_lt.mpr hle)]

/-- C8 (amended): for every distance function, every list of at least two
points and every tolerance ≥ 0, `simplifyPath` returns a list whose first
and last elements are the input's first and last points; and whenever the
tolerance is at least every interior point's deviation from the endpoint
chord, it returns exactly the two endpoints.  (For negative tolerance the
source can recurse forever — see the divergence counterexample.) -/
theorem simplifyPath_spec (pd : Point → Point → Point → ℚ)
    (pts : List Point) (tol : ℚ) (hlen : 2 ≤ pts.length) (htol : 0 ≤ tol) :
    (∃ r, simplifyPath pd pts tol = some r ∧
      r.head? = pts.head? ∧ r.getLast? = pts.getLast? ∧ 2 ≤ r.length) ∧
    ((∀ i, 1 ≤ i → i + 1 < pts.length →
        pd (pts.getD i ⟨0, 0⟩) (pts.getD 0 ⟨0, 0⟩)
          (pts.getD (pts.length - 1) ⟨0, 0⟩) ≤ tol) →
      simplifyPath pd pts tol =
        some [pts.getD 0 ⟨0, 0⟩, pts.getD (pts.length - 1) ⟨0, 0⟩]) := by
  constructor
  · obtain ⟨r, her, hh, hl, h2⟩ :=
      simplifyPathF_success pd tol htol (pts.length + 1) pts (by omega)
    exact ⟨r, her, hh, hl, h2 hlen⟩
  · intro hall
    exact simplifyPathF_endpoints pd pts tol (pts.length + 1) hlen
      (by omega) htol hall

/-- C8 witness: the simplification theorem at the concrete 3-point path
`(0,0), (3,4), (6,0)` with tolerance 100: with the (squared) source metric
every interior deviation is 16 ≤ 100, so the endpoints are returned. -/
theorem simplifyPath_spec_witness :
    2 ≤ ([⟨0, 0⟩, ⟨3, 4⟩, ⟨6, 0⟩] : List Point).length ∧ (0 : ℚ) ≤ 100 ∧
    ((∃ r, simplifyPath perpendicularDistanceSq [⟨0, 0⟩, ⟨3, 4⟩, ⟨6, 0⟩] 100 =
        some r ∧
        r.head? = ([⟨0, 0⟩, ⟨3, 4⟩, ⟨6, 0⟩] : List Point).head? ∧
        r.getLast? = ([⟨0, 0⟩, ⟨3, 4⟩, ⟨6, 0⟩] : List Point).getLast? ∧
        2 ≤ r.length) ∧
      ((∀ i, 1 ≤ i → i + 1 < ([⟨0, 0⟩, ⟨3, 4⟩, ⟨6, 0⟩] : List Point).length →
          perpendicularDistanceSq
            (([⟨0, 0⟩, ⟨3, 4⟩, ⟨6, 0⟩] : List Point).getD i ⟨0, 0⟩)
            (([⟨0, 0⟩, ⟨3, 4⟩, ⟨6, 0⟩] : List Point).getD 0 ⟨0, 0⟩)
            (([⟨0, 0⟩, ⟨3, 4⟩, ⟨6, 0⟩] : List Point).getD
              (([⟨0, 0⟩, ⟨3, 4⟩, ⟨6, 0⟩] : List Point).length - 1) ⟨0, 0⟩) ≤ 100) →
        simplifyPath perpendicularDistanceSq [⟨0, 0⟩, ⟨3, 4⟩, ⟨6, 0⟩] 100 =
          some [([⟨0, 0⟩, ⟨3, 4⟩, ⟨6, 0⟩] : List Point).getD 0 ⟨0, 0⟩,
            ([⟨0, 0⟩, ⟨3, 4⟩, ⟨6, 0⟩] : List Point).getD
              (([⟨0, 0⟩, ⟨3, 4⟩, ⟨6, 0⟩] : List Point).length - 1) ⟨0, 0⟩])) :=
  ⟨by norm_num, by norm_num,
    simplifyPath_spec perpendicularDistanceSq [⟨0, 0⟩, ⟨3, 4⟩, ⟨6, 0⟩] 100
      (by norm_num) (by norm_num)⟩

/-- Three collinear points, on which the source's perpendicular distance is
exactly 0 for the interior point (so the rational squared metric agrees with
it exactly on every distance this run evaluates). -/
def collinearTriple : List Point := [⟨0, 0⟩, ⟨1, 0⟩, ⟨2, 0⟩]

/-- The max-distance scan on the collinear triple finds nothing: it returns
the initial `(0, 0)` state, in particular `maxIndex = 0`. -/
theorem findMaxDist_collinearTriple :
    findMaxDist perpendicularDistanceSq collinearTriple = (0, 0) := by
  have h1 : (List.range' 1 1) = [1] := rfl
  simp only [findMaxDist, maxDistFold, collinearTriple]
  norm_num [h1, perpendicularDistanceSq]

/-- One-step unfolding of the fueled simplification. -/
theorem simplifyPathF_succ_eq (pd : Point → Point → Point → ℚ) (fuel : ℕ)
    (pts : List Point) (tol : ℚ) :
    simplifyPathF pd (fuel + 1) pts tol =
      if pts.length ≤ 2 then some pts
      else
        if (findMaxDist pd pts).1 > tol then
          match simplifyPathF pd fuel (pts.take ((findMaxDist pd pts).2 + 1)) tol,
            simplifyPathF pd fuel (pts.drop (findMaxDist pd pts).2) tol with
          | some leftPoints, some rightPoints =>
            some (leftPoints.dropLast ++ rightPoints)
          | _, _ => none
        else
          some [pts.getD 0 ⟨0, 0⟩, pts.getD (pts.length - 1) ⟨0, 0⟩] := rfl

/-- With tolerance −1 on the collinear triple, every fuel level is exhausted:
`maxDist = 0 > −1` forces a split at `maxIndex = 0`, whose right slice is
the whole list again — the source recurses on identical arguments. -/
theorem simplifyPathF_collinearTriple_none (n : ℕ) :
    simplifyPathF perpendicularDistanceSq (n + 1) collinearTriple (-1) =
      none := by
  induction n with
  | zero =>
    rw [simplifyPathF_succ_eq]
    rw [if_neg (by norm_num [collinearTriple]), findMaxDist_collinearTriple,
      if_pos (by norm_num)]
    rfl
  | succ n ih =>
    rw [simplifyPathF_succ_eq]
    rw [if_neg (by norm_num [collinearTriple]), findMaxDist_collinearTriple,
      if_pos (by norm_num)]
    have htake : collinearTriple.take ((0, 0).2 + 1) = [⟨0, 0⟩] := rfl
    have hdrop : collinearTriple.drop (0, 0).2 = collinearTriple := rfl
    rw [htake, hdrop, ih]
    have hleft : simplifyPathF perpendicularDistanceSq (n + 1) [⟨0, 0⟩] (-1) =
        some [⟨0, 0⟩] := by
      rw [simplifyPathF_succ_eq]
      norm_num
    rw [hleft]

/-- C8 counterexample: the claim quantifies over EVERY tolerance, but at
tolerance −1 on three collinear points `simplifyPath` never returns — the
JavaScript original recurses on an unchanged argument list (`maxIndex` stays
0) until the stack overflows, and the fueled model returns `none` at every
fuel level — so no list with the input's endpoints is returned. -/
theorem simplifyPath_negative_tolerance_diverges :
    2 ≤ collinearTriple.length ∧
    simplifyPath perpendicularDistanceSq collinearTriple (-1) = none := by
  constructor
  · norm_num [collinearTriple]
  · show simplifyPathF perpendicularDistanceSq (collinearTriple.length + 1)
      collinearTriple (-1) = none
    exact simplifyPathF_collinearTriple_none 3

/-! ## Color quantization (colorUtils, kMeansQuantize)

The source selects a distance function (`LAB` Euclidean or weighted-RGB via
`Math.sqrt`) and draws from `Math.random()`; distances are irrational, so
the embedding takes the metric as a parameter `dist` (the claims below hold
for every metric) and the random stream as a parameter `rand : ℕ → ℚ`
consumed in call order, exactly where the source calls `Math.random()`. -/

/-- `Math.floor(q)` clamped to ℕ (the source only floors values scaled from
`Math.random() ∈ [0, 1)`, which are nonnegative). -/
def jsFloorNat (q : ℚ) : ℕ := q.floor.toNat

/-- The redmean weighted RGB distance `colorDistanceWeighted`, up to its
final `Math.sqrt` (kept rational so witnesses can evaluate it; the missing
monotone square root does not change any comparison the algorithm makes). -/
def colorDistanceWeightedSq (c1 c2 : RGB) : ℚ :=
  let rmean := ((c1.r : ℚ) + c2.r) / 2
  let dr := (c1.r : ℚ) - c2.r
  let dg := (c1.g : ℚ) - c2.g
  let db := (c1.b : ℚ) - c2.b
  (2 + rmean / 256) * dr * dr + 4 * dg * dg +
    (2 + (255 - rmean) / 256) * db * db

/-- `minDist` accumulation of `initializeCentroids`: distance from `p` to
its nearest existing centroid (`Infinity` start folded away — the list of
centroids is never empty when this is called). -/
def minDistToCentroids (dist : RGB → RGB → ℚ) (centroids : List RGB)
    (p : RGB) : ℚ :=
  match centroids with
  | [] => 0
  | c :: rest => rest.foldl (fun m c2 => min m (dist p c2)) (dist p c)

/-- The inner selection loop of `initializeCentroids`: subtract the squared
distances from `target` in order and return the first index where it drops
to ≤ 0 (`none` models the loop ending without `break`). -/
def pickIndex : List ℚ → ℚ → ℕ → Option ℕ
  | [], _, _ => none
  | d :: rest, target, j =>
    if target - d ≤ 0 then some j else pickIndex rest (target - d) (j + 1)

/-- One k-means++ round of `initializeCentroids`: weight every pixel by its
squared distance to the nearest centroid, draw `target = rand * total`,
select by cumulative subtraction, and fall back to a uniformly random pixel
if no index was selected.  The state carries the centroid list and the
position in the random stream. -/
def kppStep (rand : ℕ → ℚ) (dist : RGB → RGB → ℚ) (pixels : List RGB)
    (st : List RGB × ℕ) : List RGB × ℕ :=
  let distances := pixels.map (fun p => (minDistToCentroids dist st.1 p) ^ 2)
  let total := distances.sum
  let target := rand st.2 * total
  match pickIndex distances target 0 with
  | some j => (st.1 ++ [pixels.getD j ⟨0, 0, 0⟩], st.2 + 1)
  | none =>
    (st.1 ++ [pixels.getD (jsFloorNat (rand (st.2 + 1) * pixels.length)) ⟨0, 0, 0⟩],
      st.2 + 2)

/-- `initializeCentroids` (k-means++): first centroid uniformly random, then
`k − 1` rounds of `kppStep`. -/
def initializeCentroids (rand : ℕ → ℚ) (dist : RGB → RGB → ℚ)
    (pixels : List RGB) (k : ℕ) : List RGB :=
  let first := pixels.getD (jsFloorNat (rand 0 * pixels.length)) ⟨0, 0, 0⟩
  ((List.range' 1 (k - 1)).foldl (fun st _i => kppStep rand dist pixels st)
    ([first], 1)).1

/-- The argmin scan of the assignment loops: `minDist = Infinity`
(modelled as `none`), `minIndex = 0`, strict improvement only. -/
def assignIndex (dist : RGB → RGB → ℚ) (centroids : List RGB) (p : RGB) : ℕ :=
  (centroids.foldl
    (fun st c =>
      let d := dist p c
      match st with
      | (none, _, i) => (some d, i, i + 1)
      | (some b, bi, i) =>
        if d < b then (some d, i, i + 1) else (some b, bi, i + 1))
    ((none : Option ℚ), 0, 0)).2.1

/-- The per-iteration assignment pass of `kMeansQuantize`. -/
def assignAll (dist : RGB → RGB → ℚ) (centroids : List RGB)
    (sample : List RGB) : List ℕ :=
  sample.map (assignIndex dist centroids)

/-- The centroid update of `kMeansQuantize`: channel-wise mean
(`Math.round`ed) of each cluster's pixels; clusters that received no pixel
keep their previous centroid. -/
def updateCentroids (k : ℕ) (sample : List RGB) (assignments : List ℕ)
    (old : List RGB) : List RGB :=
  (List.range k).map (fun i =>
    let cluster := (sample.zip assignments).filter (fun pa => pa.2 = i)
    if cluster.length > 0 then
      { r := (jsRound ((cluster.map (fun pa => (pa.1.r : ℚ))).sum / cluster.length)).toNat
        g := (jsRound ((cluster.map (fun pa => (pa.1.g : ℚ))).sum / cluster.length)).toNat
        b := (jsRound ((cluster.map (fun pa => (pa.1.b : ℚ))).sum / cluster.length)).toNat }
    else old.getD i ⟨0, 0, 0⟩)

/-- Lloyd's iteration of `kMeansQuantize`: assign, stop as soon as the
assignments did not change (centroids left untouched in that round), else
update the centroids and continue, for at most `maxIterations` rounds. -/
def lloydIter (dist : RGB → RGB → ℚ) (k : ℕ) (sample : List RGB) :
    ℕ → List RGB → List ℕ → List RGB
  | 0, centroids, _ => centroids
  | n + 1, centroids, assignments =>
    let newAssignments := assignAll dist centroids sample
    if newAssignments = assignments then centroids
    else
      lloydIter dist k sample n
        (updateCentroids k sample newAssignments centroids) newAssignments

/-- The pair returned by `kMeansQuantize`: the palette and the per-pixel
assignment map (`-1` is the transparency sentinel, hence ℤ). -/
structure QuantResult where
  palette : List RGB
  assignments : List ℤ
deriving DecidableEq, Repr

/-- `kMeansQuantize` (part_007 lines 139–252): filter out pixels with
alpha ≤ 128; with no opaque pixel return the single white centroid and
all-zero assignments; otherwise cluster on a strided subsample capped at
50000 pixels, run k-means++ initialization and at most `maxIterations`
Lloyd rounds, then map every original pixel to its nearest final centroid
(`-1` for transparent pixels).  The non-degenerate branch is factored into
`kMeansCore`. -/
def kMeansCore (dist : RGB → RGB → ℚ) (rand : ℕ → ℚ)
    (pixels : List RGBA) (k : ℕ) (maxIterations : ℕ) : QuantResult :=
  let opaquePixels := pixels.filter (fun p => p.a > 128)
  let samplePixels :=
    if opaquePixels.length > 50000 then
      let step := (opaquePixels.length + 50000 - 1) / 50000
      (opaquePixels.enum.filter (fun ip => ip.1 % step = 0)).map (fun ip => ip.2)
    else opaquePixels
  let sampleRGB := samplePixels.map RGBA.toRGB
  let finalCentroids := lloydIter dist k sampleRGB maxIterations
    (initializeCentroids rand dist sampleRGB k)
    (List.replicate sampleRGB.length 0)
  { palette := finalCentroids
    assignments := pixels.map (fun p =>
      if p.a ≤ 128 then (-1 : ℤ)
      else (assignIndex dist finalCentroids p.toRGB : ℤ)) }

def kMeansQuantize (dist : RGB → RGB → ℚ) (rand : ℕ → ℚ)
    (pixels : List RGBA) (k : ℕ) (maxIterations : ℕ := 20) : QuantResult :=
  if (pixels.filter (fun p => p.a > 128)).length = 0 then
    { palette := [⟨255, 255, 255⟩], assignments := pixels.map (fun _ => 0) }
  else kMeansCore dist rand pixels k maxIterations

/-- Each k-means++ round adds exactly one centroid. -/
theorem kppFold_length (rand : ℕ → ℚ) (dist : RGB → RGB → ℚ)
    (pixels : List RGB) (l : List ℕ) (st : List RGB × ℕ) :
    ((l.foldl (fun st _i => kppStep rand dist pixels st) st).1).length =
      st.1.length + l.length := by
  induction l generalizing st with
  | nil => simp
  | cons i l ih =>
    rw [List.foldl_cons, ih]
    have : (kppStep rand dist pixels st).1.length = st.1.length + 1 := by
      unfold kppStep
      cases hpick : pickIndex (pixels.map
          (fun p => (minDistToCentroids dist st.1 p) ^ 2))
          (rand st.2 * (pixels.map
            (fun p => (minDistToCentroids dist st.1 p) ^ 2)).sum) 0 with
      | none => simp [hpick]
      | some j => simp [hpick]
    rw [this]
    simp only [List.length_cons]
    omega

/-- `initializeCentroids` returns exactly `k` centroids for `k ≥ 1`. -/
theorem initializeCentroids_length (rand : ℕ → ℚ) (dist : RGB → RGB → ℚ)
    (pixels : List RGB) (k : ℕ) (hk : 1 ≤ k) :
    (initializeCentroids rand dist pixels k).length = k := by
  unfold initializeCentroids
  rw [kppFold_length]
  simp
  omega

/-- The centroid update always yields `k` centroids. -/
theorem updateCentroids_length (k : ℕ) (sample : List RGB)
    (assignments : List ℕ) (old : List RGB) :
    (updateCentroids k sample assignments old).length = k := by
  simp [updateCentroids]

/-- Lloyd's iteration preserves the number of centroids. -/
theorem lloydIter_length (dist : RGB → RGB → ℚ) (k : ℕ) (sample : List RGB)
    (n : ℕ) : ∀ centroids assignments, centroids.length = k →
    (lloydIter dist k sample n centroids assignments).length = k := by
  induction n with
  | zero => intro centroids _ h; exact h
  | succ n ih =>
    intro centroids assignments h
    unfold lloydIter
    dsimp only
    split
    · exact h
    · exact ih _ _ (updateCentroids_length k sample _ centroids)

/-- The argmin scan's invariant: once a best value exists its index stays
below the number of processed centroids. -/
theorem assignFold_inv (dist : RGB → RGB → ℚ) (p : RGB) :
    ∀ (cs : List RGB) (best : Option ℚ) (bi i : ℕ),
    (bi < i ∨ best = none) → (cs ≠ [] ∨ best ≠ none) →
    (cs.foldl
      (fun st c =>
        let d := dist p c
        match st with
        | (none, _, i) => (some d, i, i + 1)
        | (some b, bi, i) =>
          if d < b then (some d, i, i + 1) else (some b, bi, i + 1))
      (best, bi, i)).2.1 <
    (cs.foldl
      (fun st c =>
        let d := dist p c
        match st with
        | (none, _, i) => (some d, i, i + 1)
        | (some b, bi, i) =>
          if d < b then (some d, i, i + 1) else (some b, bi, i + 1))
      (best, bi, i)).2.2 ∧
    (cs.foldl
      (fun st c =>
        let d := dist p c
        match st with
        | (none, _, i) => (some d, i, i + 1)
        | (some b, bi, i) =>
          if d < b then (some d, i, i + 1) else (some b, bi, i + 1))
      (best, bi, i)).2.2 = i + cs.length := by
  intro cs
  induction cs with
  | nil =>
    intro best bi i h1 h2
    rcases h2 with h2 | h2
    · exact absurd rfl h2
    · rcases h1 with h1 | h1
      · exact ⟨h1, rfl⟩
      · exact absurd h1 h2
  | cons c cs ih =>
    intro best bi i h1 _
    rw [List.foldl_cons]
    cases best with
    | none =>
      have := ih (some (dist p c)) i (i + 1) (Or.inl (by omega))
        (Or.inr (by simp))
      simpa [List.length_cons, Nat.add_assoc, Nat.add_comm 1 cs.length]
        using this
    | some b =>
      have hbi : bi < i := by
        rcases h1 with h1 | h1
        · exact h1
        · exact absurd h1 (by simp)
      by_cases hd : dist p c < b
      · have := ih (some (dist p c)) i (i + 1) (Or.inl (by omega))
          (Or.inr (by simp))
        simp only [hd, if_pos]
        simpa [List.length_cons, Nat.add_assoc, Nat.add_comm 1 cs.length]
          using this
      · have := ih (some b) bi (i + 1) (Or.inl (by omega)) (Or.inr (by simp))
        simp only [hd, if_neg, if_false]
        simpa [List.length_cons, Nat.add_assoc, Nat.add_comm 1 cs.length]
          using this

/-- The argmin of a nonempty centroid list is a valid palette index. -/
theorem assignIndex_lt (dist : RGB → RGB → ℚ) (centroids : List RGB)
    (p : RGB) (h : centroids ≠ []) :
    assignIndex dist centroids p < centroids.length := by
  have := assignFold_inv dist p centroids none 0 0 (Or.inr rfl) (Or.inl h)
  unfold assignIndex
  omega

/-- `getD` through `map` at an in-range index. -/
theorem getD_map_lt {α β : Type} (f : α → β) (l : List α) (i : ℕ)
    (h : i < l.length) (d : β) (d2 : α) :
    (l.map f).getD i d = f (l.getD i d2) := by
  rw [List.getD_eq_getElem?_getD, List.getElem?_map,
    List.getD_eq_getElem?_getD, List.getElem?_eq_getElem h]
  simp

/-- C1 (amended): for every metric and random stream, every pixel buffer
containing at least one opaque pixel and every `k ≥ 1`, `kMeansQuantize`
returns a palette with exactly `k` entries, an assignment map of the same
length as the buffer in which every pixel with alpha > 128 is assigned a
valid palette index and every pixel with alpha ≤ 128 is assigned −1.  (With
no opaque pixel at all, the palette is the single white centroid and every
assignment — transparent pixels included — is 0, not −1; see the
counterexample.) -/
theorem kMeansQuantize_spec (dist : RGB → RGB → ℚ) (rand : ℕ → ℚ)
    (pixels : List RGBA) (k maxIter : ℕ) (hk : 1 ≤ k)
    (hop : (pixels.filter (fun p => p.a > 128)).length ≠ 0) :
    (kMeansQuantize dist rand pixels k maxIter).palette.length = k ∧
    (kMeansQuantize dist rand pixels k maxIter).assignments.length =
      pixels.length ∧
    ∀ i, i < pixels.length →
      (128 < (pixels.getD i ⟨0, 0, 0, 0⟩).a →
        ∃ j : ℕ,
          (kMeansQuantize dist rand pixels k maxIter).assignments.getD i 0 =
            (j : ℤ) ∧ j < k) ∧
      ((pixels.getD i ⟨0, 0, 0, 0⟩).a ≤ 128 →
        (kMeansQuantize dist rand pixels k maxIter).assignments.getD i 0 =
          -1) := by
  have hcore : kMeansQuantize dist rand pixels k maxIter =
      kMeansCore dist rand pixels k maxIter := by
    unfold kMeansQuantize
    rw [if_neg hop]
  have hpal : (kMeansCore dist rand pixels k maxIter).palette.length = k := by
    show (lloydIter dist k _ maxIter (initializeCentroids rand dist _ k)
      _).length = k
    exact lloydIter_length dist k _ maxIter _ _
      (initializeCentroids_length rand dist _ k hk)
  have hassign : (kMeansCore dist rand pixels k maxIter).assignments =
      pixels.map (fun p =>
        if p.a ≤ 128 then (-1 : ℤ)
        else (assignIndex dist (kMeansCore dist rand pixels k maxIter).palette
          p.toRGB : ℤ)) := rfl
  rw [hcore]
  refine ⟨hpal, ?_, ?_⟩
  · rw [hassign]
    simp
  · intro i hi
    constructor
    · intro hopq
      refine ⟨assignIndex dist
        ((kMeansCore dist rand pixels k maxIter).palette)
        (pixels.getD i ⟨0, 0, 0, 0⟩).toRGB, ?_, ?_⟩
      · rw [hassign, getD_map_lt _ pixels i hi _ ⟨0, 0, 0, 0⟩,
          if_neg (by omega)]
      · have hne : (kMeansCore dist rand pixels k maxIter).palette ≠ [] := by
          intro hnil
          rw [hnil] at hpal
          simp at hpal
          omega
        have hlt := assignIndex_lt dist _
          (pixels.getD i ⟨0, 0, 0, 0⟩).toRGB hne
        omega
    · intro htr
      rw [hassign, getD_map_lt _ pixels i hi _ ⟨0, 0, 0, 0⟩, if_pos htr]

/-- C1 witness: the quantization theorem on a two-pixel buffer (one opaque,
one transparent) with `k = 1`, the weighted-RGB metric and a constant
random stream. -/
theorem kMeansQuantize_spec_witness :
    1 ≤ 1 ∧
    (([⟨10, 20, 30, 255⟩, ⟨1, 2, 3, 0⟩] : List RGBA).filter
      (fun p => p.a > 128)).length ≠ 0 ∧
    ((kMeansQuantize colorDistanceWeightedSq (fun _ => 0)
        [⟨10, 20, 30, 255⟩, ⟨1, 2, 3, 0⟩] 1 20).palette.length = 1 ∧
      (kMeansQuantize colorDistanceWeightedSq (fun _ => 0)
        [⟨10, 20, 30, 255⟩, ⟨1, 2, 3, 0⟩] 1 20).assignments.length = 2 ∧
      ∀ i, i < ([⟨10, 20, 30, 255⟩, ⟨1, 2, 3, 0⟩] : List RGBA).length →
        (128 < (([⟨10, 20, 30, 255⟩, ⟨1, 2, 3, 0⟩] : List RGBA).getD i
            ⟨0, 0, 0, 0⟩).a →
          ∃ j : ℕ,
            (kMeansQuantize colorDistanceWeightedSq (fun _ => 0)
              [⟨10, 20, 30, 255⟩, ⟨1, 2, 3, 0⟩] 1 20).assignments.getD i 0 =
              (j : ℤ) ∧ j < 1) ∧
        ((([⟨10, 20, 30, 255⟩, ⟨1, 2, 3, 0⟩] : List RGBA).getD i
            ⟨0, 0, 0, 0⟩).a ≤ 128 →
          (kMeansQuantize colorDistanceWeightedSq (fun _ => 0)
            [⟨10, 20, 30, 255⟩, ⟨1, 2, 3, 0⟩] 1 20).assignments.getD i 0 =
            -1)) :=
  ⟨le_refl 1, by decide,
    kMeansQuantize_spec colorDistanceWeightedSq (fun _ => 0)
      [⟨10, 20, 30, 255⟩, ⟨1, 2, 3, 0⟩] 1 20 (le_refl 1) (by decide)⟩

/-- C1 counterexample: on a buffer whose only pixel is fully transparent,
the degenerate branch of `kMeansQuantize` assigns 0 — not the −1 sentinel
the claim promises for every pixel with alpha ≤ 128. -/
theorem kMeansQuantize_degenerate_transparent_assigns_zero :
    ((⟨0, 0, 0, 0⟩ : RGBA).a ≤ 128) ∧
    (kMeansQuantize (fun _ _ => 0) (fun _ => 0)
      [⟨0, 0, 0, 0⟩] 1 20).assignments = [0] ∧
    ((0 : ℤ) ≠ -1) :=
  ⟨by decide, rfl, by decide⟩

/-! ## Cleanup pipeline: border-connected region removal
(removeEdgeConnectedRegions, part_005 lines 1408–1448)

The source walks an explicit stack of `[x, y]` coordinates (possibly out of
range: bounds are checked after popping), whitens every black pixel it
reaches and marks it in a `visited` byte array; the byte array is modelled
as the `Finset` of marked indices. -/

/-- The `floodFill` worklist loop: pop a coordinate; skip it when out of
range, already visited, or not black; otherwise whiten it, mark it visited
and push its four neighbors (the source pushes `[x+1,y], [x-1,y], [x,y+1],
[x,y-1]` and pops from the end, so `(x, y-1)` is popped first). -/
def floodFillLoop (w h : ℕ) (result : List ℕ) (visited : Finset ℕ)
    (stack : List (ℤ × ℤ)) : List ℕ × Finset ℕ :=
  match stack with
  | [] => (result, visited)
  | (x, y) :: rest =>
    if x < 0 ∨ (w : ℤ) ≤ x ∨ y < 0 ∨ (h : ℤ) ≤ y then
      floodFillLoop w h result visited rest
    else
      if (y * w + x).toNat ∈ visited then
        floodFillLoop w h result visited rest
      else if result.getD (y * w + x).toNat 255 ≠ 0 then
        floodFillLoop w h result visited rest
      else
        floodFillLoop w h (result.set (y * w + x).toNat 255)
          (insert (y * w + x).toNat visited)
          ((x, y - 1) :: (x, y + 1) :: (x - 1, y) :: (x + 1, y) :: rest)
  termination_by 5 * ((Finset.range (w * h)) \ visited).card + stack.length
  decreasing_by
  · simp
  · simp
  · simp
  · rename_i hout hmem _
    have hx : 0 ≤ x := by omega
    have hy : 0 ≤ y := by omega
    have hcoord : (y * w + x).toNat = y.toNat * w + x.toNat := by
      have : y * w + x = ((y.toNat * w + x.toNat : ℕ) : ℤ) := by
        push_cast
        rw [Int.toNat_of_nonneg hy, Int.toNat_of_nonneg hx]
      rw [this, Int.toNat_natCast]
    have hidx : (y * w + x).toNat < w * h := by
      rw [hcoord]
      exact rowMajor_lt _ _ w h (by omega) (by omega)
    have hcard : ((Finset.range (w * h)) \ insert (y * w + x).toNat visited).card + 1
        = ((Finset.range (w * h)) \ visited).card := by
      rw [Finset.sdiff_insert, Finset.card_erase_add_one]
      simp only [Finset.mem_sdiff, Finset.mem_range]
      exact ⟨hidx, hmem⟩
    simp only [List.length_cons]
    omega

/-- The border seeds, in source order: for each `x` the top then bottom
border pixel, then for each `y` the left then right border pixel. -/
def borderSeeds (w h : ℕ) : List (ℕ × ℕ) :=
  (List.range w).flatMap (fun x => [(x, 0), (x, h - 1)]) ++
    (List.range h).flatMap (fun y => [(0, y), (w - 1, y)])

/-- One conditional seeding of the flood fill: the source starts a fill at a
border coordinate only when the (current) result pixel there is black. -/
def seedStep (w h : ℕ) (st : List ℕ × Finset ℕ) (c : ℕ × ℕ) :
    List ℕ × Finset ℕ :=
  if st.1.getD (c.2 * w + c.1) 255 = 0 then
    floodFillLoop w h st.1 st.2 [((c.1 : ℤ), (c.2 : ℤ))]
  else st

/-- `removeEdgeConnectedRegions`: copy the buffer, flood-fill white from
every black border pixel, return the resulting buffer. -/
def removeEdgeConnectedRegions (pixels : List ℕ) (w h : ℕ) : List ℕ :=
  ((borderSeeds w h).foldl (seedStep w h) (pixels, (∅ : Finset ℕ))).1

/-- 4-adjacency of in-range pixel coordinates. -/
def Adj (w h : ℕ) (x y x2 y2 : ℕ) : Prop :=
  x < w ∧ y < h ∧ x2 < w ∧ y2 < h ∧
    ((x2 = x + 1 ∧ y2 = y) ∨ (x2 + 1 = x ∧ y2 = y) ∨
      (x2 = x ∧ y2 = y + 1) ∨ (x2 = x ∧ y2 + 1 = y))

/-- The black pixels 4-connected (through black pixels) to a black border
pixel of the original buffer. -/
inductive ReachesBorder (pixels : List ℕ) (w h : ℕ) : ℕ → ℕ → Prop where
  | border (x y : ℕ) (hx : x < w) (hy : y < h)
      (hb : x = 0 ∨ x + 1 = w ∨ y = 0 ∨ y + 1 = h)
      (hblack : pixels.getD (y * w + x) 255 = 0) : ReachesBorder pixels w h x y
  | step (x y x2 y2 : ℕ) (hr : ReachesBorder pixels w h x y)
      (hadj : Adj w h x y x2 y2)
      (hblack : pixels.getD (y2 * w + x2) 255 = 0) :
      ReachesBorder pixels w h x2 y2

/-- Invariant tying the working buffer to the original: only black pixels of
the original are ever changed, each exactly when it is marked visited. -/
def FloodInv (pixels : List ℕ) (result : List ℕ) (visited : Finset ℕ) : Prop :=
  result.length = pixels.length ∧
  (∀ i, result.getD i 255 = 0 ↔ (pixels.getD i 255 = 0 ∧ i ∉ visited)) ∧
  (∀ i, result.getD i 255 = pixels.getD i 255 ∨ result.getD i 255 = 255)

/-- Closure of a visited set: every in-range black 4-neighbor of a visited
pixel is visited. -/
def FloodClosed (pixels : List ℕ) (w h : ℕ) (visited : Finset ℕ) : Prop :=
  ∀ i ∈ visited, ∀ x y x2 y2 : ℕ, i = y * w + x → x < w → y < h →
    Adj w h x y x2 y2 → pixels.getD (y2 * w + x2) 255 = 0 →
    (y2 * w + x2) ∈ visited

/-- `set` then read back at the written (in-range) index. -/
theorem getD_set_self (l : List ℕ) (i a d : ℕ) (h : i < l.length) :
    (l.set i a).getD i d = a := by
  simp [List.getD, List.getElem?_set, h]

/-- `set` leaves other indices unchanged. -/
theorem getD_set_other (l : List ℕ) (i j a d : ℕ) (h : i ≠ j) :
    (l.set i a).getD j d = l.getD j d := by
  simp [List.getD, List.getElem?_set, h]

/-- Row-major decomposition is unique for in-range columns. -/
theorem rowMajor_unique (x y x2 y2 w : ℕ) (hx : x < w) (hx2 : x2 < w)
    (heq : y * w + x = y2 * w + x2) : x = x2 ∧ y = y2 := by
  have h1 := rowMajor_div_mod x y w hx
  have h2 := rowMajor_div_mod x2 y2 w hx2
  constructor
  · rw [← h1.2, ← h2.2, heq]
  · rw [← h1.1, ← h2.1, heq]

/-- Marking one in-range black pixel (whiten + visit) preserves the flood
invariant. -/
theorem FloodInv_mark (pixels result : List ℕ) (visited : Finset ℕ) (idx : ℕ)
    (hInv : FloodInv pixels result visited) (hidx : idx < result.length) :
    FloodInv pixels (result.set idx 255) (insert idx visited) := by
  obtain ⟨hlen, hiff, hval⟩ := hInv
  refine ⟨by simp [hlen], ?_, ?_⟩
  · intro i
    by_cases hij : idx = i
    · subst hij
      rw [getD_set_self _ _ _ _ hidx]
      constructor
      · intro hcontr
        norm_num at hcontr
      · rintro ⟨_, hnot⟩
        exact absurd (Finset.mem_insert_self _ _) hnot
    · rw [getD_set_other _ _ _ _ _ hij, hiff i]
      constructor
      · rintro ⟨hp, hnv⟩
        refine ⟨hp, fun hmem => ?_⟩
        rcases Finset.mem_insert.mp hmem with heq | hmem
        · exact hij heq.symm
        · exact hnv hmem
      · rintro ⟨hp, hnv⟩
        exact ⟨hp, fun hmem => hnv (Finset.mem_insert_of_mem hmem)⟩
  · intro i
    by_cases hij : idx = i
    · subst hij
      rw [getD_set_self _ _ _ _ hidx]
      right
      rfl
    · rw [getD_set_other _ _ _ _ _ hij]
      exact hval i

/-- Hoare-style summary of the `floodFill` worklist loop: the invariant is
preserved, the visited set only grows, every in-range originally-black
coordinate on the stack ends up visited, and every pixel visited during the
call has all its in-range black 4-neighbors visited by the end of the
call. -/
theorem floodFillLoop_spec (w h : ℕ) (pixels : List ℕ)
    (hlen : pixels.length = w * h) (result : List ℕ) (visited : Finset ℕ)
    (stack : List (ℤ × ℤ)) (hInv : FloodInv pixels result visited) :
    FloodInv pixels (floodFillLoop w h result visited stack).1
      (floodFillLoop w h result visited stack).2 ∧
    visited ⊆ (floodFillLoop w h result visited stack).2 ∧
    (∀ p ∈ stack, ∀ xn yn : ℕ, p.1 = (xn : ℤ) → p.2 = (yn : ℤ) →
      xn < w → yn < h → pixels.getD (yn * w + xn) 255 = 0 →
      (yn * w + xn) ∈ (floodFillLoop w h result visited stack).2) ∧
    (∀ i ∈ (floodFillLoop w h result visited stack).2, i ∈ visited ∨
      (∀ xn yn x2 y2 : ℕ, i = yn * w + xn → xn < w → yn < h →
        Adj w h xn yn x2 y2 → pixels.getD (y2 * w + x2) 255 = 0 →
        (y2 * w + x2) ∈ (floodFillLoop w h result visited stack).2)) := by
  induction result, visited, stack using floodFillLoop.induct w h with
  | case1 result visited =>
    have heq : floodFillLoop w h result visited [] = (result, visited) := by
      rw [floodFillLoop]
    rw [heq]
    refine ⟨hInv, Finset.Subset.refl _, ?_, ?_⟩
    · intro p hp
      simp at hp
    · intro i hi
      exact Or.inl hi
  | case2 result visited x y rest hout ih =>
    have heq : floodFillLoop w h result visited ((x, y) :: rest) =
        floodFillLoop w h result visited rest := by
      rw [floodFillLoop]
      simp only [if_pos hout]
    rw [heq]
    obtain ⟨h1, h2, h3, h4⟩ := ih hInv
    refine ⟨h1, h2, ?_, h4⟩
    intro p hp xn yn hpx hpy hxw hyh hblack
    rcases List.mem_cons.mp hp with rfl | hp
    · exfalso
      have hpx2 : x = (xn : ℤ) := hpx
      have hpy2 : y = (yn : ℤ) := hpy
      omega
    · exact h3 p hp xn yn hpx hpy hxw hyh hblack
  | case3 result visited x y rest hout hmem ih =>
    have heq : floodFillLoop w h result visited ((x, y) :: rest) =
        floodFillLoop w h result visited rest := by
      rw [floodFillLoop]
      simp only [if_neg hout, if_pos hmem]
    rw [heq]
    obtain ⟨h1, h2, h3, h4⟩ := ih hInv
    refine ⟨h1, h2, ?_, h4⟩
    intro p hp xn yn hpx hpy hxw hyh hblack
    rcases List.mem_cons.mp hp with rfl | hp
    · have hpx2 : x = (xn : ℤ) := hpx
      have hpy2 : y = (yn : ℤ) := hpy
      have hidx : (y * w + x).toNat = yn * w + xn := by
        rw [hpx2, hpy2]
        have : (yn : ℤ) * w + xn = ((yn * w + xn : ℕ) : ℤ) := by push_cast; ring
        rw [this, Int.toNat_natCast]
      exact h2 (hidx ▸ hmem)
    · exact h3 p hp xn yn hpx hpy hxw hyh hblack
  | case4 result visited x y rest hout hmem hres ih =>
    have heq : floodFillLoop w h result visited ((x, y) :: rest) =
        floodFillLoop w h result visited rest := by
      rw [floodFillLoop]
      simp only [if_neg hout, if_neg hmem, if_pos hres]
    rw [heq]
    obtain ⟨h1, h2, h3, h4⟩ := ih hInv
    refine ⟨h1, h2, ?_, h4⟩
    intro p hp xn yn hpx hpy hxw hyh hblack
    rcases List.mem_cons.mp hp with rfl | hp
    · have hpx2 : x = (xn : ℤ) := hpx
      have hpy2 : y = (yn : ℤ) := hpy
      have hidx : (y * w + x).toNat = yn * w + xn := by
        rw [hpx2, hpy2]
        have : (yn : ℤ) * w + xn = ((yn * w + xn : ℕ) : ℤ) := by push_cast; ring
        rw [this, Int.toNat_natCast]
      have hvis : (yn * w + xn) ∈ visited := by
        by_contra hnv
        exact hres (hidx ▸ ((hInv.2.1 _).mpr ⟨hblack, hnv⟩))
      exact h2 hvis
    · exact h3 p hp xn yn hpx hpy hxw hyh hblack
  | case5 result visited x y rest hout hmem hres ih =>
    have hx0 : 0 ≤ x := by omega
    have hxw : x < (w : ℤ) := by omega
    have hy0 : 0 ≤ y := by omega
    have hyh : y < (h : ℤ) := by omega
    have hxeq : x = (x.toNat : ℤ) := by omega
    have hyeq : y = (y.toNat : ℤ) := by omega
    have hcoord : (y * w + x).toNat = y.toNat * w + x.toNat := by
      have : y * w + x = ((y.toNat * w + x.toNat : ℕ) : ℤ) := by
        push_cast
        rw [← hxeq, ← hyeq]
      rw [this, Int.toNat_natCast]
    have hxnw : x.toNat < w := by omega
    have hynh : y.toNat < h := by omega
    have hidxlt : (y * w + x).toNat < result.length := by
      rw [hInv.1, hlen, hcoord]
      exact rowMajor_lt _ _ w h hxnw hynh
    have hInv2 : FloodInv pixels (result.set (y * w + x).toNat 255)
        (insert (y * w + x).toNat visited) :=
      FloodInv_mark pixels result visited _ hInv hidxlt
    have heq : floodFillLoop w h result visited ((x, y) :: rest) =
        floodFillLoop w h (result.set (y * w + x).toNat 255)
          (insert (y * w + x).toNat visited)
          ((x, y - 1) :: (x, y + 1) :: (x - 1, y) :: (x + 1, y) :: rest) := by
      rw [floodFillLoop]
      simp only [if_neg hout, if_neg hmem, if_neg hres]
    rw [heq]
    obtain ⟨h1, h2, h3, h4⟩ := ih hInv2
    have hsub : visited ⊆ (floodFillLoop w h
        (result.set (y * w + x).toNat 255)
        (insert (y * w + x).toNat visited)
        ((x, y - 1) :: (x, y + 1) :: (x - 1, y) :: (x + 1, y) :: rest)).2 :=
      fun a ha => h2 (Finset.mem_insert_of_mem ha)
    have hself : (y * w + x).toNat ∈ (floodFillLoop w h
        (result.set (y * w + x).toNat 255)
        (insert (y * w + x).toNat visited)
        ((x, y - 1) :: (x, y + 1) :: (x - 1, y) :: (x + 1, y) :: rest)).2 :=
      h2 (Finset.mem_insert_self _ _)
    refine ⟨h1, hsub, ?_, ?_⟩
    · intro p hp xn yn hpx hpy hxw2 hyh2 hblack
      rcases List.mem_cons.mp hp with rfl | hp
      · have hpx2 : x = (xn : ℤ) := hpx
        have hpy2 : y = (yn : ℤ) := hpy
        have hidx2 : (y * w + x).toNat = yn * w + xn := by
          rw [hpx2, hpy2]
          have : (yn : ℤ) * w + xn = ((yn * w + xn : ℕ) : ℤ) := by
            push_cast; ring
          rw [this, Int.toNat_natCast]
        exact hidx2 ▸ hself
      · exact h3 p (by simp [hp]) xn yn hpx hpy hxw2 hyh2 hblack
    · intro i hi
      rcases h4 i hi with hins | hclosure
      · rcases Finset.mem_insert.mp hins with rfl | hold
        · right
          intro xn yn x2 y2 hdecomp hxnw2 hynh2 hadj hblack2
          obtain ⟨hxn, hyn⟩ : xn = x.toNat ∧ yn = y.toNat := by
            have heq2 : y.toNat * w + x.toNat = yn * w + xn := by
              rw [← hcoord, hdecomp]
            have huq := rowMajor_unique x.toNat y.toNat xn yn w hxnw hxnw2 heq2
            exact ⟨huq.1.symm, huq.2.symm⟩
          subst hxn hyn
          obtain ⟨_, _, hx2w, hy2h, hcase⟩ := hadj
          rcases hcase with ⟨rfl, rfl⟩ | ⟨hx2, rfl⟩ | ⟨rfl, rfl⟩ | ⟨rfl, hy2⟩
          · exact h3 (x + 1, y) (by simp) (x.toNat + 1) y.toNat
              (by show x + 1 = ((x.toNat + 1 : ℕ) : ℤ); push_cast; omega)
              (by show y = ((y.toNat : ℕ) : ℤ); omega)
              hx2w hy2h hblack2
          · exact h3 (x - 1, y) (by simp) x2 y.toNat
              (by show x - 1 = ((x2 : ℕ) : ℤ); omega)
              (by show y = ((y.toNat : ℕ) : ℤ); omega)
              hx2w hy2h hblack2
          · exact h3 (x, y + 1) (by simp) x.toNat (y.toNat + 1)
              (by show x = ((x.toNat : ℕ) : ℤ); omega)
              (by show y + 1 = ((y.toNat + 1 : ℕ) : ℤ); push_cast; omega)
              hx2w hy2h hblack2
          · exact h3 (x, y - 1) (by simp) x.toNat y2
              (by show x = ((x.toNat : ℕ) : ℤ); omega)
              (by show y - 1 = ((y2 : ℕ) : ℤ); omega)
              hx2w hy2h hblack2
        · exact Or.inl hold
      · exact Or.inr hclosure

/-- One conditional border seeding preserves the invariant and closure, only
grows the visited set, and guarantees its own seed is visited whenever that
seed is in range and originally black. -/
theorem seedStep_spec (w h : ℕ) (pixels : List ℕ)
    (hlen : pixels.length = w * h) (st : List ℕ × Finset ℕ) (c : ℕ × ℕ)
    (hInv : FloodInv pixels st.1 st.2)
    (hcl : FloodClosed pixels w h st.2) :
    FloodInv pixels (seedStep w h st c).1 (seedStep w h st c).2 ∧
    st.2 ⊆ (seedStep w h st c).2 ∧
    FloodClosed pixels w h (seedStep w h st c).2 ∧
    (c.1 < w → c.2 < h → pixels.getD (c.2 * w + c.1) 255 = 0 →
      (c.2 * w + c.1) ∈ (seedStep w h st c).2) := by
  unfold seedStep
  by_cases hb : st.1.getD (c.2 * w + c.1) 255 = 0
  · rw [if_pos hb]
    obtain ⟨hInv2, hsub, hsp, hnc⟩ := floodFillLoop_spec w h pixels hlen
      st.1 st.2 [((c.1 : ℤ), (c.2 : ℤ))] hInv
    refine ⟨hInv2, hsub, ?_, ?_⟩
    · intro i hi x y x2 y2 hdecomp hxw hyh hadj hblack
      rcases hnc i hi with hold | hclosure
      · exact hsub (hcl i hold x y x2 y2 hdecomp hxw hyh hadj hblack)
      · exact hclosure x y x2 y2 hdecomp hxw hyh hadj hblack
    · intro hcw hch hblack
      exact hsp ((c.1 : ℤ), (c.2 : ℤ)) (by simp) c.1 c.2 rfl rfl hcw hch hblack
  · rw [if_neg hb]
    refine ⟨hInv, Finset.Subset.refl _, hcl, ?_⟩
    intro _ _ hblack
    by_contra hnv
    exact hb ((hInv.2.1 _).mpr ⟨hblack, hnv⟩)

/-- Folding the border seeds: the invariant and closure are maintained and
every in-range originally-black seed ends up visited. -/
theorem seedFold_spec (w h : ℕ) (pixels : List ℕ)
    (hlen : pixels.length = w * h) :
    ∀ (seeds : List (ℕ × ℕ)) (st : List ℕ × Finset ℕ),
    FloodInv pixels st.1 st.2 → FloodClosed pixels w h st.2 →
    FloodInv pixels (seeds.foldl (seedStep w h) st).1
      (seeds.foldl (seedStep w h) st).2 ∧
    st.2 ⊆ (seeds.foldl (seedStep w h) st).2 ∧
    FloodClosed pixels w h (seeds.foldl (seedStep w h) st).2 ∧
    (∀ c ∈ seeds, c.1 < w → c.2 < h →
      pixels.getD (c.2 * w + c.1) 255 = 0 →
      (c.2 * w + c.1) ∈ (seeds.foldl (seedStep w h) st).2) := by
  intro seeds
  induction seeds with
  | nil =>
    intro st hInv hcl
    exact ⟨hInv, Finset.Subset.refl _, hcl, fun c hc => absurd hc (by simp)⟩
  | cons c seeds ih =>
    intro st hInv hcl
    obtain ⟨hInv1, hsub1, hcl1, hseed1⟩ :=
      seedStep_spec w h pixels hlen st c hInv hcl
    obtain ⟨hInv2, hsub2, hcl2, hseed2⟩ :=
      ih (seedStep w h st c) hInv1 hcl1
    rw [List.foldl_cons]
    refine ⟨hInv2, Finset.Subset.trans hsub1 hsub2, hcl2, ?_⟩
    intro c2 hc2 hcw hch hblack
    rcases List.mem_cons.mp hc2 with rfl | hc2
    · exact hsub2 (hseed1 hcw hch hblack)
    · exact hseed2 c2 hc2 hcw hch hblack

/-- Every in-range border coordinate is among the border seeds. -/
theorem mem_borderSeeds (w h x y : ℕ) (hx : x < w) (hy : y < h)
    (hb : x = 0 ∨ x + 1 = w ∨ y = 0 ∨ y + 1 = h) :
    (x, y) ∈ borderSeeds w h := by
  unfold borderSeeds
  rw [List.mem_append]
  rcases hb with rfl | hxw | rfl | hyh
  · right
    rw [List.mem_flatMap]
    exact ⟨y, List.mem_range.mpr hy, by simp⟩
  · right
    rw [List.mem_flatMap]
    refine ⟨y, List.mem_range.mpr hy, ?_⟩
    have : x = w - 1 := by omega
    subst this
    simp
  · left
    rw [List.mem_flatMap]
    exact ⟨x, List.mem_range.mpr hx, by simp⟩
  · left
    rw [List.mem_flatMap]
    refine ⟨x, List.mem_range.mpr hx, ?_⟩
    have : y = h - 1 := by omega
    subst this
    simp

/-- A pixel reaching the border is black in the original buffer. -/
theorem ReachesBorder.black (pixels : List ℕ) (w h x y : ℕ)
    (hr : ReachesBorder pixels w h x y) :
    pixels.getD (y * w + x) 255 = 0 := by
  cases hr with
  | border _ _ _ _ _ hblack => exact hblack
  | step _ _ _ _ _ _ hblack => exact hblack

/-- C4: after edge-region removal no black pixel remains on any of the four
border lines, and every black pixel that was 4-connected (through black
pixels) to a black border pixel has been turned white (255). -/
theorem removeEdgeConnectedRegions_spec (pixels : List ℕ) (w h : ℕ)
    (hlen : pixels.length = w * h) :
    (∀ x y, x < w → y < h → (x = 0 ∨ x + 1 = w ∨ y = 0 ∨ y + 1 = h) →
      (removeEdgeConnectedRegions pixels w h).getD (y * w + x) 255 ≠ 0) ∧
    (∀ x y, ReachesBorder pixels w h x y →
      (removeEdgeConnectedRegions pixels w h).getD (y * w + x) 255 = 255) := by
  have hInv0 : FloodInv pixels pixels ∅ := by
    refine ⟨rfl, ?_, fun i => Or.inl rfl⟩
    intro i
    simp
  have hcl0 : FloodClosed pixels w h (∅ : Finset ℕ) := by
    intro i hi
    simp at hi
  obtain ⟨hInvF, _, hclF, hseedF⟩ :=
    seedFold_spec w h pixels hlen (borderSeeds w h) (pixels, ∅) hInv0 hcl0
  have hvis : ∀ x y, ReachesBorder pixels w h x y →
      (y * w + x) ∈ ((borderSeeds w h).foldl (seedStep w h) (pixels, ∅)).2 := by
    intro x y hr
    induction hr with
    | border x y hx hy hb hblack =>
      exact hseedF (x, y) (mem_borderSeeds w h x y hx hy hb) hx hy hblack
    | step x y x2 y2 hr hadj hblack ihv =>
      exact hclF (y * w + x) ihv x y x2 y2 rfl hadj.1 hadj.2.1 hadj hblack
  constructor
  · intro x y hx hy hb heq0
    have := (hInvF.2.1 (y * w + x)).mp heq0
    exact this.2 (hseedF (x, y) (mem_borderSeeds w h x y hx hy hb) hx hy this.1)
  · intro x y hr
    have hv := hvis x y hr
    have hpb := ReachesBorder.black pixels w h x y hr
    have hne : ((borderSeeds w h).foldl (seedStep w h)
        (pixels, ∅)).1.getD (y * w + x) 255 ≠ 0 := by
      intro heq0
      exact ((hInvF.2.1 (y * w + x)).mp heq0).2 hv
    rcases hInvF.2.2 (y * w + x) with hsame | h255
    · exact absurd (hsame.trans hpb) hne
    · exact h255

/-- C4 witness: the edge-removal theorem on a 2×2 all-black buffer — every
pixel is border-connected, so the whole buffer is cleared. -/
theorem removeEdgeConnectedRegions_spec_witness :
    (List.replicate 4 0).length = 2 * 2 ∧
    ((∀ x y, x < 2 → y < 2 → (x = 0 ∨ x + 1 = 2 ∨ y = 0 ∨ y + 1 = 2) →
        (removeEdgeConnectedRegions (List.replicate 4 0) 2 2).getD
          (y * 2 + x) 255 ≠ 0) ∧
      (∀ x y, ReachesBorder (List.replicate 4 0) 2 2 x y →
        (removeEdgeConnectedRegions (List.replicate 4 0) 2 2).getD
          (y * 2 + x) 255 = 255)) :=
  ⟨by decide, removeEdgeConnectedRegions_spec (List.replicate 4 0) 2 2
    (by decide)⟩
